import Mathlib

/-!
# Verification of the 3D tic-tac-toe engines of `alpha-beta`

Shallow embedding of the game engines of the repository:

* `atari_3d_tictactoe.py` (`AtariTicTacToe3D`): cells hold `-1` (empty),
  `0` (X) or `1` (O); minimax with alpha-beta pruning, fail-soft, with a
  ±1000 immediate-win short-circuit and a squared-count static evaluation.
* `tictactoe_3d.py` (`TicTacToe3D`): cells hold `0` (empty), `1` (X, human)
  or `-1` (O, AI); fail-hard alpha-beta returning `[z, y, x, score]`.
* `ttt3d_4x4x4.py` (`TTT3D`): cells hold `-1` (empty), `0`/`1` (pieces);
  winning lines are kept as flat indices `layer*16 + row*4 + col`;
  `look_ahead` with a global node budget.

Boards are embedded as total functions `Nat → Nat → Nat → Int`; all loops in
the Python sources range over `0..3`, so the functions are only ever applied
in range (the one exception, `TicTacToe3D.ai_move` writing through Python
negative index `-1`, is modelled by explicit wrap-around, see `setMoveI`).
Python's `float('inf')` sentinels for alpha/beta are modelled by the linear
order `WithBot (WithTop ℤ)`: all concrete scores are integers, and the only
float operations performed on them in the sources are exact comparisons.
-/

set_option maxRecDepth 20000

abbrev Coord : Type := Nat × Nat × Nat

/-- Boards are total functions from coordinates (layer, row, column) to the
integer cell codes used by the Python sources. -/
abbrev Board : Type := Nat → Nat → Nat → Int

/-- Point update of a board cell, the meaning of `board[z][y][x] = v`. -/
def setCell (b : Board) (z y x : Nat) (v : Int) : Board :=
  fun z' y' x' => if z' = z ∧ y' = y ∧ x' = x then v else b z' y' x'

/-- All 64 coordinates in the order the Python triple loops
`for z in range(4): for y in range(4): for x in range(4)` produce them. -/
def allCells : List Coord :=
  (List.range 4).flatMap fun z =>
    (List.range 4).flatMap fun y =>
      (List.range 4).map fun x => (z, y, x)

/-- Extended integers, used for Python's `float('inf')` / `-float('inf')`
alpha-beta window sentinels. -/
abbrev EInt : Type := WithBot (WithTop ℤ)

/-- Embeds a finite integer score into the extended integers. -/
def eint (n : ℤ) : EInt := ((n : WithTop ℤ) : EInt)

theorem eint_lt_eint {m n : ℤ} : eint m < eint n ↔ m < n := by
  simp [eint]

theorem eint_le_eint {m n : ℤ} : eint m ≤ eint n ↔ m ≤ n := by
  simp [eint]

theorem bot_lt_eint (n : ℤ) : (⊥ : EInt) < eint n := by
  simp [eint]

theorem eint_lt_top (n : ℤ) : eint n < (⊤ : EInt) := by
  have h : ((n : WithTop ℤ) : EInt) < ((⊤ : WithTop ℤ) : EInt) :=
    WithBot.coe_lt_coe.mpr (WithTop.coe_lt_top n)
  simpa [eint] using h

theorem eint_injective : Function.Injective eint := by
  intro a b h
  simpa [eint] using h

/-! ## Winning-line catalog

`TicTacToe3D.get_all_winning_lines` and
`AtariTicTacToe3D._generate_winning_combinations` build literally the same
list of 76 coordinate lines, in the same order; it is embedded once. -/

/-- Section 1 of the catalog: rows within each layer. -/
def rowLines : List (List Coord) :=
  (List.range 4).flatMap fun z =>
    (List.range 4).map fun y => (List.range 4).map fun x => (z, y, x)

/-- Section 2: columns within each layer. -/
def colLines : List (List Coord) :=
  (List.range 4).flatMap fun z =>
    (List.range 4).map fun x => (List.range 4).map fun y => (z, y, x)

/-- Section 3: the two diagonals of each layer. -/
def layerDiagLines : List (List Coord) :=
  (List.range 4).flatMap fun z =>
    [(List.range 4).map fun i => (z, i, i),
     (List.range 4).map fun i => (z, i, 3 - i)]

/-- Section 4: vertical lines through the layers. -/
def verticalLines : List (List Coord) :=
  (List.range 4).flatMap fun y =>
    (List.range 4).map fun x => (List.range 4).map fun z => (z, y, x)

/-- Section 5: diagonals in the vertical planes of constant column. -/
def yzDiagLines : List (List Coord) :=
  (List.range 4).flatMap fun x =>
    [(List.range 4).map fun i => (i, i, x),
     (List.range 4).map fun i => (i, 3 - i, x)]

/-- Section 6: diagonals in the vertical planes of constant row. -/
def xzDiagLines : List (List Coord) :=
  (List.range 4).flatMap fun y =>
    [(List.range 4).map fun i => (i, y, i),
     (List.range 4).map fun i => (i, y, 3 - i)]

/-- Section 7: the four space diagonals. -/
def spaceDiagLines : List (List Coord) :=
  [(List.range 4).map fun i => (i, i, i),
   (List.range 4).map fun i => (i, i, 3 - i),
   (List.range 4).map fun i => (i, 3 - i, i),
   (List.range 4).map fun i => (i, 3 - i, 3 - i)]

/-- The 76 winning lines of the 4×4×4 board as coordinate lists, translated
from `TicTacToe3D.get_all_winning_lines` (identical to
`AtariTicTacToe3D._generate_winning_combinations`): rows, columns, in-layer
diagonals, verticals, the two families of vertical-plane diagonals, and the
four space diagonals, in source order. -/
def winningLines : List (List Coord) :=
  rowLines ++ colLines ++ layerDiagLines ++ verticalLines ++ yzDiagLines ++
    xzDiagLines ++ spaceDiagLines

/-- `coord_to_index` of `TTT3D._generate_winning_combinations`. -/
def coordToIndex (c : Coord) : Nat :=
  c.1 * 16 + c.2.1 * 4 + c.2.2

/-- `TTT3D._generate_winning_combinations` (ttt3d_4x4x4.py): the same 76
lines, stored as flat indices `layer*16 + row*4 + col`, in source order. -/
def winningCombinationsIdx : List (List Nat) :=
  ((List.range 4).flatMap fun layer =>
    (List.range 4).map fun row =>
      (List.range 4).map fun col => coordToIndex (layer, row, col)) ++
  ((List.range 4).flatMap fun layer =>
    (List.range 4).map fun col =>
      (List.range 4).map fun row => coordToIndex (layer, row, col)) ++
  ((List.range 4).flatMap fun layer =>
    [(List.range 4).map fun i => coordToIndex (layer, i, i),
     (List.range 4).map fun i => coordToIndex (layer, i, 3 - i)]) ++
  ((List.range 4).flatMap fun row =>
    (List.range 4).map fun col =>
      (List.range 4).map fun layer => coordToIndex (layer, row, col)) ++
  ((List.range 4).flatMap fun col =>
    [(List.range 4).map fun i => coordToIndex (i, i, col),
     (List.range 4).map fun i => coordToIndex (i, 3 - i, col)]) ++
  ((List.range 4).flatMap fun row =>
    [(List.range 4).map fun i => coordToIndex (i, row, i),
     (List.range 4).map fun i => coordToIndex (i, row, 3 - i)]) ++
  [(List.range 4).map fun i => coordToIndex (i, i, i),
   (List.range 4).map fun i => coordToIndex (i, i, 3 - i),
   (List.range 4).map fun i => coordToIndex (i, 3 - i, i),
   (List.range 4).map fun i => coordToIndex (i, 3 - i, 3 - i)]

/-! ## `TicTacToe3D` (tictactoe_3d.py): cells `0` empty, `1` X, `-1` O -/

namespace T3

/-- `TicTacToe3D.check_winner`: some winning line is fully occupied by
`player`. -/
def checkWinner (b : Board) (player : Int) : Bool :=
  winningLines.any fun line => line.all fun c => b c.1 c.2.1 c.2.2 = player

/-- `TicTacToe3D.game_won`. -/
def gameWon (b : Board) : Bool :=
  checkWinner b 1 || checkWinner b (-1)

/-- `TicTacToe3D.get_score`: `10` if X won, `-10` if O won, else `0`. -/
def getScore (b : Board) : Int :=
  if checkWinner b 1 then 10 else if checkWinner b (-1) then -10 else 0

/-- `TicTacToe3D.get_blanks`: empty positions in layer/row/column order. -/
def getBlanks (b : Board) : List Coord :=
  allCells.filter fun c => b c.1 c.2.1 c.2.2 = 0

/-- `TicTacToe3D.board_full`. -/
def boardFull (b : Board) : Bool :=
  (getBlanks b).length = 0

/-- `TicTacToe3D.set_move` (unconditional write; no occupancy check in the
source). -/
def setMove (b : Board) (z y x : Nat) (player : Int) : Board :=
  setCell b z y x player

/-- `TicTacToe3D.set_move` called with possibly negative Python indices, as
`ai_move` does with the `(-1, -1, -1)` sentinel positions: Python `list[i]`
for `i ∈ [-4, 3]` accesses slot `i mod 4` (negative indices count from the
end). -/
def setMoveI (b : Board) (z y x : Int) (player : Int) : Board :=
  setCell b (z.emod 4).toNat (y.emod 4).toNat (x.emod 4).toNat player

/-- The move loop of `TicTacToe3D.alpha_beta_minimax`, iterating over the
blank list computed at entry; `next b α β` is the recursive call at
`depth - 1` with the flipped player.  For each blank: place `player`,
recurse, raise `alpha` (player 1) or lower `beta` (player -1) on strict
improvement remembering the position, undo the move, and break returning the
window bound as score once `alpha >= beta`. -/
def abLoop (next : Board → EInt → EInt → (Int × Int × Int) × EInt × Board)
    (player : Int) :
    List Coord → Board → EInt → EInt → (Int × Int × Int) →
      (Int × Int × Int) × EInt × Board
  | [], b, α, β, pos => (pos, if player = 1 then α else β, b)
  | (z, y, x) :: rest, b, α, β, pos =>
    let r := next (setMove b z y x player) α β
    let s := r.2.1
    let α' := if player = 1 ∧ α < s then s else α
    let β' := if ¬player = 1 ∧ s < β then s else β
    let pos' :=
      if (player = 1 ∧ α < s) ∨ (¬player = 1 ∧ s < β)
      then ((z : Int), (y : Int), (x : Int)) else pos
    let b' := setMove r.2.2 z y x 0
    if β' ≤ α' then (pos', if player = 1 then α' else β', b')
    else abLoop next player rest b' α' β' pos'

/-- `TicTacToe3D.alpha_beta_minimax`: returns the best position (or the
`(-1, -1, -1)` sentinel) together with the score and the board as left behind
by the call. -/
def alphaBetaMinimax :
    Nat → Board → EInt → EInt → Int → (Int × Int × Int) × EInt × Board
  | 0, b, _, _, _ => ((-1, -1, -1), eint (getScore b), b)
  | d + 1, b, α, β, player =>
    if gameWon b || boardFull b then ((-1, -1, -1), eint (getScore b), b)
    else
      abLoop (fun b' α' β' => alphaBetaMinimax d b' α' β' (-player)) player
        (getBlanks b) b α β (-1, -1, -1)

/-- Unpruned depth-bounded minimax with the same terminal conditions and
evaluation as `alphaBetaMinimax` (the comparator of claim C1): a non-terminal
node's value is the maximum (player 1) or minimum (player -1) over all
children, with no alpha-beta window and no pruning. -/
def plainMinimax : Nat → Board → Int → EInt
  | 0, b, _ => eint (getScore b)
  | d + 1, b, player =>
    if gameWon b || boardFull b then eint (getScore b)
    else
      let vals := (getBlanks b).map fun c =>
        plainMinimax d (setMove b c.1 c.2.1 c.2.2 player) (-player)
      if player = 1 then vals.foldr max ⊥ else vals.foldr min ⊤

/-- `TicTacToe3D.ai_move`, with the difficulty already resolved to its search
`depth` (`difficulty_depths`: easy 2, difficult 4, insane 6; default 4) and
the `random.choice` of the very-open-board branch supplied by `pick`.
Returns the position written and the board after the write.  The final
`set_move` goes through `setMoveI` because the searched position can be the
`(-1, -1, -1)` sentinel, which Python's negative indexing turns into a write
to cell `(3, 3, 3)`. -/
def aiMove (pick : List Coord → Coord) (depth : Nat) (b : Board) :
    (Int × Int × Int) × Board :=
  let blanks := getBlanks b
  if 60 ≤ blanks.length then
    let c := pick blanks
    (((c.1 : Int), (c.2.1 : Int), (c.2.2 : Int)),
      setMove b c.1 c.2.1 c.2.2 (-1))
  else
    let maxDepth := min depth blanks.length
    let r := alphaBetaMinimax maxDepth b ⊥ ⊤ (-1)
    (r.1, setMoveI r.2.2 r.1.1 r.1.2.1 r.1.2.2 (-1))

end T3

/-! ## Board update lemmas -/

theorem setCell_eq_of_eq (b : Board) {z y x : Nat} {v : Int} (h : b z y x = v) :
    setCell b z y x v = b := by
  funext z' y' x'
  by_cases hc : z' = z ∧ y' = y ∧ x' = x
  · obtain ⟨h1, h2, h3⟩ := hc
    subst h1; subst h2; subst h3
    simp [setCell, h]
  · simp [setCell, hc]

theorem setCell_setCell (b : Board) (z y x : Nat) (v w : Int) :
    setCell (setCell b z y x v) z y x w = setCell b z y x w := by
  funext z' y' x'
  by_cases hc : z' = z ∧ y' = y ∧ x' = x <;> simp [setCell, hc]

namespace T3

/-! ### The board is restored on every exit path (claim C2) -/

theorem abLoop_board
    (next : Board → EInt → EInt → (Int × Int × Int) × EInt × Board)
    (player : Int)
    (hnext : ∀ b' α' β', (next b' α' β').2.2 = b') :
    ∀ (cells : List Coord) (b : Board),
      (∀ c ∈ cells, b c.1 c.2.1 c.2.2 = 0) →
      ∀ (α β : EInt) (pos : Int × Int × Int),
        (abLoop next player cells b α β pos).2.2 = b := by
  intro cells
  induction cells with
  | nil => intro b _ α β pos; rfl
  | cons c rest ih =>
    obtain ⟨z, y, x⟩ := c
    intro b hcells α β pos
    have hb0 : b z y x = 0 := hcells (z, y, x) (List.mem_cons_self _ _)
    have hb' : setMove ((next (setMove b z y x player) α β).2.2) z y x 0 = b := by
      rw [hnext]
      show setCell (setCell b z y x player) z y x 0 = b
      rw [setCell_setCell]
      exact setCell_eq_of_eq b hb0
    have hih := ih b (fun c hc => hcells c (List.mem_cons_of_mem _ hc))
    simp only [abLoop]
    rw [hb']
    repeat' first
      | rfl
      | exact hih _ _ _
      | split

theorem alphaBetaMinimax_board :
    ∀ (d : Nat) (b : Board) (α β : EInt) (player : Int),
      (alphaBetaMinimax d b α β player).2.2 = b := by
  intro d
  induction d with
  | zero => intro b α β player; rfl
  | succ d ih =>
    intro b α β player
    simp only [alphaBetaMinimax]
    split
    · rfl
    · exact abLoop_board _ player (fun b' α' β' => ih b' α' β' (-player))
        (getBlanks b) b
        (fun c hc => of_decide_eq_true (List.mem_filter.mp hc).2) _ _ _

/-! ### Specialized views of the move loop for the two players

`abLoopMax`/`abLoopMin` are `abLoop` with the `player == 1` tests resolved;
they are proved equal to `abLoop` at `player = 1` / `player = -1` and carry
the alpha-beta window reasoning. -/

def abLoopMax (next : Board → EInt → EInt → (Int × Int × Int) × EInt × Board) :
    List Coord → Board → EInt → EInt → (Int × Int × Int) →
      (Int × Int × Int) × EInt × Board
  | [], b, α, _, pos => (pos, α, b)
  | (z, y, x) :: rest, b, α, β, pos =>
    let r := next (setMove b z y x 1) α β
    let s := r.2.1
    let α' := if α < s then s else α
    let pos' := if α < s then ((z : Int), (y : Int), (x : Int)) else pos
    let b' := setMove r.2.2 z y x 0
    if β ≤ α' then (pos', α', b') else abLoopMax next rest b' α' β pos'

def abLoopMin (next : Board → EInt → EInt → (Int × Int × Int) × EInt × Board) :
    List Coord → Board → EInt → EInt → (Int × Int × Int) →
      (Int × Int × Int) × EInt × Board
  | [], b, _, β, pos => (pos, β, b)
  | (z, y, x) :: rest, b, α, β, pos =>
    let r := next (setMove b z y x (-1)) α β
    let s := r.2.1
    let β' := if s < β then s else β
    let pos' := if s < β then ((z : Int), (y : Int), (x : Int)) else pos
    let b' := setMove r.2.2 z y x 0
    if β' ≤ α then (pos', β', b') else abLoopMin next rest b' α β' pos'

theorem abLoop_one
    (next : Board → EInt → EInt → (Int × Int × Int) × EInt × Board) :
    ∀ (cells : List Coord) (b : Board) (α β : EInt) (pos : Int × Int × Int),
      abLoop next 1 cells b α β pos = abLoopMax next cells b α β pos := by
  intro cells
  induction cells with
  | nil => intro b α β pos; simp [abLoop, abLoopMax]
  | cons c rest ih =>
    obtain ⟨z, y, x⟩ := c
    intro b α β pos
    simp only [abLoop, abLoopMax]
    simp only [show ((1 : Int) = 1) = True from by simp, true_and, not_true,
      false_and, if_true, if_false, or_false]
    rw [ih]

theorem abLoop_neg_one
    (next : Board → EInt → EInt → (Int × Int × Int) × EInt × Board) :
    ∀ (cells : List Coord) (b : Board) (α β : EInt) (pos : Int × Int × Int),
      abLoop next (-1) cells b α β pos = abLoopMin next cells b α β pos := by
  intro cells
  induction cells with
  | nil => intro b α β pos; simp [abLoop, abLoopMin]
  | cons c rest ih =>
    obtain ⟨z, y, x⟩ := c
    intro b α β pos
    simp only [abLoop, abLoopMin]
    simp only [show ((-1 : Int) = 1) = False from by norm_num, false_and,
      not_false_iff, true_and, if_true, if_false, false_or]
    rw [ih]

/-! ### Window invariants of the pruned loops (claim C1)

`tfun c` is the unpruned value of the child reached through cell `c`; the
hypotheses state the usual fail-hard alpha-beta soundness clauses for the
children, the conclusion re-establishes them for the surrounding loop. -/

theorem abLoopMax_clauses
    (next : Board → EInt → EInt → (Int × Int × Int) × EInt × Board)
    (β : EInt) (tfun : Coord → EInt)
    (hnext : ∀ b' α' β', (next b' α' β').2.2 = b') :
    ∀ (cells : List Coord) (b : Board),
      (∀ c ∈ cells, b c.1 c.2.1 c.2.2 = 0) →
      (∀ c ∈ cells, ∀ α', α' < β →
        ((tfun c ≤ α' →
            (next (setMove b c.1 c.2.1 c.2.2 1) α' β).2.1 ≤ α') ∧
         (α' < tfun c → tfun c < β →
            (next (setMove b c.1 c.2.1 c.2.2 1) α' β).2.1 = tfun c) ∧
         (β ≤ tfun c →
            β ≤ (next (setMove b c.1 c.2.1 c.2.2 1) α' β).2.1))) →
      ∀ (α : EInt) (pos : Int × Int × Int), α < β →
        (((cells.map tfun).foldr max ⊥ ≤ α →
            (abLoopMax next cells b α β pos).2.1 = α) ∧
         (α < (cells.map tfun).foldr max ⊥ →
            (cells.map tfun).foldr max ⊥ < β →
            (abLoopMax next cells b α β pos).2.1 =
              (cells.map tfun).foldr max ⊥) ∧
         (β ≤ (cells.map tfun).foldr max ⊥ →
            β ≤ (abLoopMax next cells b α β pos).2.1)) := by
  intro cells
  induction cells with
  | nil =>
    intro b _ _ α pos hαβ
    exact ⟨fun _ => rfl, fun h1 _ => absurd h1 not_lt_bot,
      fun h3 => absurd (lt_of_lt_of_le hαβ h3) not_lt_bot⟩
  | cons c rest ih =>
    obtain ⟨z, y, x⟩ := c
    intro b hcells hchild α pos hαβ
    have hb0 : b z y x = 0 := hcells (z, y, x) (List.mem_cons_self _ _)
    have hb' : setMove ((next (setMove b z y x 1) α β).2.2) z y x 0 = b := by
      rw [hnext]
      show setCell (setCell b z y x 1) z y x 0 = b
      rw [setCell_setCell]
      exact setCell_eq_of_eq b hb0
    have hih := ih b (fun c hc => hcells c (List.mem_cons_of_mem _ hc))
      (fun c hc => hchild c (List.mem_cons_of_mem _ hc))
    have hhead := hchild (z, y, x) (List.mem_cons_self _ _) α hαβ
    simp only [abLoopMax, List.map_cons, List.foldr_cons]
    rw [hb']
    rcases lt_trichotomy (tfun (z, y, x)) β with htβ | htβ | htβ
    · rcases le_or_lt (tfun (z, y, x)) α with htα | htα
      · -- child fails low: no update, continue with the same window
        have hs : (next (setMove b z y x 1) α β).2.1 ≤ α := hhead.1 htα
        rw [if_neg (not_lt.mpr hs), if_neg (not_lt.mpr hs),
          if_neg (not_le.mpr hαβ)]
        obtain ⟨ih1, ih2, ih3⟩ := hih α pos hαβ
        refine ⟨fun h1 => ih1 (le_of_max_le_right h1), fun h2a h2b => ?_,
          fun h3 => ?_⟩
        · rcases max_choice (tfun (z, y, x)) ((rest.map tfun).foldr max ⊥)
            with hm | hm
          · rw [hm] at h2a; exact absurd (lt_of_lt_of_le h2a htα) (lt_irrefl α)
          · rw [hm] at h2a h2b ⊢; exact ih2 h2a h2b
        · rcases max_choice (tfun (z, y, x)) ((rest.map tfun).foldr max ⊥)
            with hm | hm
          · rw [hm] at h3
            exact absurd (lt_of_le_of_lt h3 htβ) (lt_irrefl β)
          · rw [hm] at h3; exact ih3 h3
      · -- child value inside the window: alpha rises to the exact value
        have hs : (next (setMove b z y x 1) α β).2.1 = tfun (z, y, x) :=
          hhead.2.1 htα htβ
        rw [hs, if_pos htα, if_pos htα, if_neg (not_le.mpr htβ)]
        obtain ⟨ih1, ih2, ih3⟩ := hih (tfun (z, y, x))
          (((z : Int), (y : Int), (x : Int))) htβ
        refine ⟨fun h1 => ?_, fun h2a h2b => ?_, fun h3 => ?_⟩
        · exact absurd (lt_of_lt_of_le htα (le_max_left _ _ |>.trans h1))
            (lt_irrefl α)
        · rcases le_or_lt ((rest.map tfun).foldr max ⊥) (tfun (z, y, x))
            with hr | hr
          · rw [max_eq_left hr]; exact ih1 hr
          · rw [max_eq_right hr.le] at h2b ⊢; exact ih2 hr h2b
        · rcases max_choice (tfun (z, y, x)) ((rest.map tfun).foldr max ⊥)
            with hm | hm
          · rw [hm] at h3
            exact absurd (lt_of_le_of_lt h3 htβ) (lt_irrefl β)
          · rw [hm] at h3; exact ih3 h3
    · -- child value equals beta: cut after the update
      have hs : β ≤ (next (setMove b z y x 1) α β).2.1 := hhead.2.2 htβ.ge
      have hαs : α < (next (setMove b z y x 1) α β).2.1 :=
        lt_of_lt_of_le hαβ hs
      rw [if_pos hαs, if_pos hαs, if_pos hs]
      refine ⟨fun h1 => ?_, fun h2a h2b => ?_, fun _ => hs⟩
      · exact absurd hαβ
          (not_lt.mpr (le_trans (htβ.ge.trans (le_max_left _ _)) h1))
      · exact absurd (lt_of_le_of_lt (htβ.ge.trans (le_max_left _ _)) h2b)
          (lt_irrefl β)
    · -- child fails high: cut after the update
      have hs : β ≤ (next (setMove b z y x 1) α β).2.1 := hhead.2.2 htβ.le
      have hαs : α < (next (setMove b z y x 1) α β).2.1 :=
        lt_of_lt_of_le hαβ hs
      rw [if_pos hαs, if_pos hαs, if_pos hs]
      refine ⟨fun h1 => ?_, fun h2a h2b => ?_, fun _ => hs⟩
      · exact absurd
          (lt_of_lt_of_le (hαβ.trans htβ) (le_max_left _ _ |>.trans h1))
          (lt_irrefl _)
      · exact absurd (lt_of_le_of_lt (le_max_left _ _) h2b)
          (not_lt.mpr htβ.le)

theorem abLoopMin_clauses
    (next : Board → EInt → EInt → (Int × Int × Int) × EInt × Board)
    (α : EInt) (tfun : Coord → EInt)
    (hnext : ∀ b' α' β', (next b' α' β').2.2 = b') :
    ∀ (cells : List Coord) (b : Board),
      (∀ c ∈ cells, b c.1 c.2.1 c.2.2 = 0) →
      (∀ c ∈ cells, ∀ β', α < β' →
        ((tfun c ≤ α →
            (next (setMove b c.1 c.2.1 c.2.2 (-1)) α β').2.1 ≤ α) ∧
         (α < tfun c → tfun c < β' →
            (next (setMove b c.1 c.2.1 c.2.2 (-1)) α β').2.1 = tfun c) ∧
         (β' ≤ tfun c →
            β' ≤ (next (setMove b c.1 c.2.1 c.2.2 (-1)) α β').2.1))) →
      ∀ (β : EInt) (pos : Int × Int × Int), α < β →
        ((β ≤ (cells.map tfun).foldr min ⊤ →
            (abLoopMin next cells b α β pos).2.1 = β) ∧
         (α < (cells.map tfun).foldr min ⊤ →
            (cells.map tfun).foldr min ⊤ < β →
            (abLoopMin next cells b α β pos).2.1 =
              (cells.map tfun).foldr min ⊤) ∧
         ((cells.map tfun).foldr min ⊤ ≤ α →
            (abLoopMin next cells b α β pos).2.1 ≤ α)) := by
  intro cells
  induction cells with
  | nil =>
    intro b _ _ β pos hαβ
    exact ⟨fun _ => rfl, fun _ h2 => absurd h2 not_top_lt,
      fun h3 => absurd ((top_le_iff.mp h3) ▸ hαβ) not_top_lt⟩
  | cons c rest ih =>
    obtain ⟨z, y, x⟩ := c
    intro b hcells hchild β pos hαβ
    have hb0 : b z y x = 0 := hcells (z, y, x) (List.mem_cons_self _ _)
    have hb' :
        setMove ((next (setMove b z y x (-1)) α β).2.2) z y x 0 = b := by
      rw [hnext]
      show setCell (setCell b z y x (-1)) z y x 0 = b
      rw [setCell_setCell]
      exact setCell_eq_of_eq b hb0
    have hih := ih b (fun c hc => hcells c (List.mem_cons_of_mem _ hc))
      (fun c hc => hchild c (List.mem_cons_of_mem _ hc))
    have hhead := hchild (z, y, x) (List.mem_cons_self _ _) β hαβ
    simp only [abLoopMin, List.map_cons, List.foldr_cons]
    rw [hb']
    rcases lt_trichotomy α (tfun (z, y, x)) with htα | htα | htα
    · rcases lt_or_le (tfun (z, y, x)) β with htβ | htβ
      · -- child value inside the window: beta drops to the exact value
        have hs : (next (setMove b z y x (-1)) α β).2.1 = tfun (z, y, x) :=
          hhead.2.1 htα htβ
        rw [hs, if_pos htβ, if_pos htβ, if_neg (not_le.mpr htα)]
        obtain ⟨ih1, ih2, ih3⟩ := hih (tfun (z, y, x))
          (((z : Int), (y : Int), (x : Int))) htα
        refine ⟨fun h1 => ?_, fun h2a h2b => ?_, fun h3 => ?_⟩
        · exact absurd
            (lt_of_le_of_lt (h1.trans (min_le_left _ _)) htβ) (lt_irrefl β)
        · rcases le_or_lt (tfun (z, y, x)) ((rest.map tfun).foldr min ⊤)
            with hr | hr
          · rw [min_eq_left hr]; exact ih1 hr
          · rw [min_eq_right hr.le] at h2a ⊢; exact ih2 h2a hr
        · rcases min_choice (tfun (z, y, x)) ((rest.map tfun).foldr min ⊤)
            with hm | hm
          · rw [hm] at h3
            exact absurd (lt_of_lt_of_le htα h3) (lt_irrefl α)
          · rw [hm] at h3; exact ih3 h3
      · -- child fails high: no update, continue with the same window
        have hs : β ≤ (next (setMove b z y x (-1)) α β).2.1 := hhead.2.2 htβ
        rw [if_neg (not_lt.mpr hs), if_neg (not_lt.mpr hs),
          if_neg (not_le.mpr hαβ)]
        obtain ⟨ih1, ih2, ih3⟩ := hih β pos hαβ
        refine ⟨fun h1 => ih1 (le_trans h1 (min_le_right _ _)),
          fun h2a h2b => ?_, fun h3 => ?_⟩
        · rcases min_choice (tfun (z, y, x)) ((rest.map tfun).foldr min ⊤)
            with hm | hm
          · rw [hm] at h2b
            exact absurd (lt_of_le_of_lt htβ h2b) (lt_irrefl β)
          · rw [hm] at h2a h2b ⊢; exact ih2 h2a h2b
        · rcases min_choice (tfun (z, y, x)) ((rest.map tfun).foldr min ⊤)
            with hm | hm
          · rw [hm] at h3
            exact absurd (lt_of_lt_of_le (hαβ.trans_le htβ) h3) (lt_irrefl α)
          · rw [hm] at h3; exact ih3 h3
    · -- child value equals alpha: cut after the update
      have hs : (next (setMove b z y x (-1)) α β).2.1 ≤ α := hhead.1 htα.ge
      have hsβ : (next (setMove b z y x (-1)) α β).2.1 < β :=
        lt_of_le_of_lt hs hαβ
      rw [if_pos hsβ, if_pos hsβ, if_pos hs]
      refine ⟨fun h1 => ?_, fun h2a _ => ?_, fun _ => hs⟩
      · exact absurd
          (lt_of_lt_of_le hαβ (h1.trans ((min_le_left _ _).trans htα.ge)))
          (lt_irrefl α)
      · exact absurd (lt_of_lt_of_le h2a ((min_le_left _ _).trans htα.ge))
          (lt_irrefl α)
    · -- child fails low: cut after the update
      have hs : (next (setMove b z y x (-1)) α β).2.1 ≤ α := hhead.1 htα.le
      have hsβ : (next (setMove b z y x (-1)) α β).2.1 < β :=
        lt_of_le_of_lt hs hαβ
      rw [if_pos hsβ, if_pos hsβ, if_pos hs]
      refine ⟨fun h1 => ?_, fun h2a _ => ?_, fun _ => hs⟩
      · exact absurd
          (lt_of_lt_of_le (htα.trans hαβ)
            (h1.trans (min_le_left _ _)))
          (lt_irrefl _)
      · exact absurd (lt_of_lt_of_le h2a ((min_le_left _ _).trans htα.le))
          (lt_irrefl α)

theorem foldr_max_bounds :
    ∀ (l : List EInt), l ≠ [] → (∀ v ∈ l, ⊥ < v ∧ v < ⊤) →
      ⊥ < l.foldr max ⊥ ∧ l.foldr max ⊥ < ⊤ := by
  intro l
  induction l with
  | nil => intro h; exact absurd rfl h
  | cons v l ih =>
    intro _ hv
    have h1 := hv v (List.mem_cons_self _ _)
    constructor
    · exact lt_max_of_lt_left h1.1
    · rcases l with _ | ⟨w, l'⟩
      · simpa using h1.2
      · exact max_lt h1.2
          (ih (by simp) (fun u hu => hv u (List.mem_cons_of_mem _ hu))).2

theorem foldr_min_bounds :
    ∀ (l : List EInt), l ≠ [] → (∀ v ∈ l, ⊥ < v ∧ v < ⊤) →
      ⊥ < l.foldr min ⊤ ∧ l.foldr min ⊤ < ⊤ := by
  intro l
  induction l with
  | nil => intro h; exact absurd rfl h
  | cons v l ih =>
    intro _ hv
    have h1 := hv v (List.mem_cons_self _ _)
    constructor
    · rcases l with _ | ⟨w, l'⟩
      · simpa using h1.1
      · exact lt_min h1.1
          (ih (by simp) (fun u hu => hv u (List.mem_cons_of_mem _ hu))).1
    · exact min_lt_of_left_lt h1.2

theorem notFull_blanks_ne_nil {b : Board}
    (h : (gameWon b || boardFull b) = false) : getBlanks b ≠ [] := by
  intro hnil
  have : boardFull b = true := by simp [boardFull, hnil]
  simp [this] at h

/-- Every `plainMinimax` value is a finite score. -/
theorem plain_bounds :
    ∀ (d : Nat) (b : Board) (p : Int),
      ⊥ < plainMinimax d b p ∧ plainMinimax d b p < ⊤ := by
  intro d
  induction d with
  | zero => intro b p; exact ⟨bot_lt_eint _, eint_lt_top _⟩
  | succ d ih =>
    intro b p
    by_cases hterm : (gameWon b || boardFull b) = true
    · simp only [plainMinimax]
      rw [if_pos hterm]
      exact ⟨bot_lt_eint _, eint_lt_top _⟩
    · have hne : getBlanks b ≠ [] :=
        notFull_blanks_ne_nil (Bool.eq_false_iff.mpr hterm)
      have hmapne :
          (getBlanks b).map
              (fun c => plainMinimax d (setMove b c.1 c.2.1 c.2.2 p) (-p)) ≠
            [] := by
        simpa using hne
      simp only [plainMinimax]
      rw [if_neg hterm]
      by_cases hp : p = 1
      · rw [if_pos hp]
        exact foldr_max_bounds _ hmapne (fun v hv => by
          obtain ⟨c, _, rfl⟩ := List.mem_map.mp hv
          exact ih _ _)
      · rw [if_neg hp]
        exact foldr_min_bounds _ hmapne (fun v hv => by
          obtain ⟨c, _, rfl⟩ := List.mem_map.mp hv
          exact ih _ _)

/-- Fail-hard alpha-beta soundness for `TicTacToe3D.alpha_beta_minimax`:
inside a window `α < β` the returned score is at most `α` when the unpruned
value fails low, equals the unpruned minimax value when that value is inside
the window, and is at least `β` when the unpruned value fails high. -/
theorem ab_clauses :
    ∀ (d : Nat) (b : Board) (α β : EInt) (p : Int), (p = 1 ∨ p = -1) →
      α < β →
      ((plainMinimax d b p ≤ α → (alphaBetaMinimax d b α β p).2.1 ≤ α) ∧
       (α < plainMinimax d b p → plainMinimax d b p < β →
          (alphaBetaMinimax d b α β p).2.1 = plainMinimax d b p) ∧
       (β ≤ plainMinimax d b p → β ≤ (alphaBetaMinimax d b α β p).2.1)) := by
  intro d
  induction d with
  | zero =>
    intro b α β p _ _
    exact ⟨fun h => h, fun _ _ => rfl, fun h => h⟩
  | succ d ih =>
    intro b α β p hp hαβ
    by_cases hterm : (gameWon b || boardFull b) = true
    · simp only [alphaBetaMinimax, plainMinimax]
      rw [if_pos hterm, if_pos hterm]
      exact ⟨fun h => h, fun _ _ => rfl, fun h => h⟩
    · rcases hp with hp | hp
      · subst hp
        simp only [alphaBetaMinimax, plainMinimax]
        rw [if_neg hterm, if_neg hterm]
        simp only [if_true]
        rw [abLoop_one]
        have hmain := abLoopMax_clauses
          (fun b' α' β' => alphaBetaMinimax d b' α' β' (-1)) β
          (fun c => plainMinimax d (setMove b c.1 c.2.1 c.2.2 1) (-1))
          (fun b' α' β' => alphaBetaMinimax_board d b' α' β' (-1))
          (getBlanks b) b
          (fun c hc => of_decide_eq_true (List.mem_filter.mp hc).2)
          (fun c _ α' hα' =>
            ih (setMove b c.1 c.2.1 c.2.2 1) α' β (-1) (Or.inr rfl) hα')
          α (-1, -1, -1) hαβ
        exact ⟨fun h => le_of_eq (hmain.1 h), hmain.2.1, hmain.2.2⟩
      · subst hp
        simp only [alphaBetaMinimax, plainMinimax, neg_neg]
        rw [if_neg hterm, if_neg hterm,
          if_neg (show ¬(-1 : Int) = 1 by norm_num), abLoop_neg_one]
        have hmain := abLoopMin_clauses
          (fun b' α' β' => alphaBetaMinimax d b' α' β' 1) α
          (fun c => plainMinimax d (setMove b c.1 c.2.1 c.2.2 (-1)) 1)
          (fun b' α' β' => alphaBetaMinimax_board d b' α' β' 1)
          (getBlanks b) b
          (fun c hc => of_decide_eq_true (List.mem_filter.mp hc).2)
          (fun c _ β' hβ' =>
            ih (setMove b c.1 c.2.1 c.2.2 (-1)) α β' 1 (Or.inl rfl) hβ')
          β (-1, -1, -1) hαβ
        exact ⟨hmain.2.2, hmain.2.1, fun h => le_of_eq (hmain.1 h).symm⟩

/-- With the full initial window, `TicTacToe3D.alpha_beta_minimax` computes
exactly the unpruned minimax value. -/
theorem ab_eq_plain (d : Nat) (b : Board) (p : Int) (hp : p = 1 ∨ p = -1) :
    (alphaBetaMinimax d b ⊥ ⊤ p).2.1 = plainMinimax d b p :=
  (ab_clauses d b ⊥ ⊤ p hp bot_lt_top).2.1
    (plain_bounds d b p).1 (plain_bounds d b p).2

end T3

/-! ## `AtariTicTacToe3D` (atari_3d_tictactoe.py): cells `-1` empty, `0` X, `1` O -/

namespace Atari

/-- Some winning combination is fully occupied by `pv` on `b`. -/
def hasWin (b : Board) (pv : Int) : Bool :=
  winningLines.any fun combo => combo.all fun c => b c.1 c.2.1 c.2.2 = pv

/-- `AtariTicTacToe3D.check_win` (state-passing): remember the original cell
value, temporarily place `pv` at the move, scan the catalog, and restore the
original value — except that on a win with `original == player_value` no
restore is performed (the write was a no-op).  Returns the win flag and the
board as left behind. -/
def checkWin (b : Board) (pv : Int) (m : Coord) : Bool × Board :=
  let original := b m.1 m.2.1 m.2.2
  let b1 := setCell b m.1 m.2.1 m.2.2 pv
  if hasWin b1 pv then
    (true, if ¬original = pv then setCell b1 m.1 m.2.1 m.2.2 original else b1)
  else
    (false, setCell b1 m.1 m.2.1 m.2.2 original)

/-- `AtariTicTacToe3D.is_board_full`. -/
def isBoardFull (b : Board) : Bool :=
  allCells.all fun c => ¬b c.1 c.2.1 c.2.2 = -1

/-- `AtariTicTacToe3D.evaluate_board`: over all winning combinations, add
`computer_count ** 2` for combinations free of human pieces and holding at
least one computer piece, and subtract `human_count ** 2` symmetrically. -/
def evaluateBoard (b : Board) (cv : Int) : Int :=
  winningLines.foldl
    (fun score combo =>
      let cc : Nat := combo.countP fun c => b c.1 c.2.1 c.2.2 = cv
      let hc : Nat := combo.countP fun c => b c.1 c.2.1 c.2.2 = 1 - cv
      if 0 < cc ∧ hc = 0 then score + (cc : Int) ^ 2
      else if 0 < hc ∧ cc = 0 then score - (hc : Int) ^ 2
      else score)
    0

/-- Maximizing move loop of `AtariTicTacToe3D.minimax`: iterate over the
cells in board order; on each empty cell place the computer piece, return
`1000` at once if that wins (after undoing), otherwise recurse through
`next`, undo, raise `max_score` and `alpha`, and return `max_score` as soon
as `beta <= alpha`. -/
def maxLoop (next : Board → EInt → EInt × Board) (cv : Int) (β : EInt) :
    List Coord → Board → EInt → EInt → EInt × Board
  | [], b, _, ms => (ms, b)
  | c :: rest, b, α, ms =>
    if b c.1 c.2.1 c.2.2 = -1 then
      let w := checkWin (setCell b c.1 c.2.1 c.2.2 cv) cv c
      if w.1 then (eint 1000, setCell w.2 c.1 c.2.1 c.2.2 (-1))
      else
        let r := next w.2 α
        let b3 := setCell r.2 c.1 c.2.1 c.2.2 (-1)
        if β ≤ max α r.1 then (max ms r.1, b3)
        else maxLoop next cv β rest b3 (max α r.1) (max ms r.1)
    else maxLoop next cv β rest b α ms

/-- Minimizing move loop of `AtariTicTacToe3D.minimax`, placing the human
piece `1 - cv`, returning `-1000` on an immediate human win, lowering
`min_score` and `beta`. -/
def minLoop (next : Board → EInt → EInt × Board) (cv : Int) (α : EInt) :
    List Coord → Board → EInt → EInt → EInt × Board
  | [], b, _, ms => (ms, b)
  | c :: rest, b, β, ms =>
    if b c.1 c.2.1 c.2.2 = -1 then
      let w := checkWin (setCell b c.1 c.2.1 c.2.2 (1 - cv)) (1 - cv) c
      if w.1 then (eint (-1000), setCell w.2 c.1 c.2.1 c.2.2 (-1))
      else
        let r := next w.2 β
        let b3 := setCell r.2 c.1 c.2.1 c.2.2 (-1)
        if min β r.1 ≤ α then (min ms r.1, b3)
        else minLoop next cv α rest b3 (min β r.1) (min ms r.1)
    else minLoop next cv α rest b β ms

/-- `AtariTicTacToe3D.minimax` (state-passing embedding): score and the
board as left behind by the call. -/
def minimax : Nat → Board → EInt → EInt → Bool → Int → EInt × Board
  | 0, b, _, _, _, cv => (eint (evaluateBoard b cv), b)
  | d + 1, b, α, β, isMax, cv =>
    if isBoardFull b then (eint (evaluateBoard b cv), b)
    else if isMax then
      maxLoop (fun b' α' => minimax d b' α' β false cv) cv β allCells b α ⊥
    else
      minLoop (fun b' β' => minimax d b' α β' true cv) cv α allCells b β ⊤

/-- Unpruned counterpart of `Atari.minimax` (the comparator of claim C1):
identical terminal evaluation and ±1000 immediate-win values, but a
non-terminal node's value is the plain max/min over all empty cells, with no
alpha-beta window and no pruning. -/
def plainAtari : Nat → Board → Bool → Int → EInt
  | 0, b, _, cv => eint (evaluateBoard b cv)
  | d + 1, b, isMax, cv =>
    if isBoardFull b then eint (evaluateBoard b cv)
    else if isMax then
      ((allCells.filter fun c => b c.1 c.2.1 c.2.2 = -1).map fun c =>
        if hasWin (setCell b c.1 c.2.1 c.2.2 cv) cv then eint 1000
        else plainAtari d (setCell b c.1 c.2.1 c.2.2 cv) false cv).foldr
        max ⊥
    else
      ((allCells.filter fun c => b c.1 c.2.1 c.2.2 = -1).map fun c =>
        if hasWin (setCell b c.1 c.2.1 c.2.2 (1 - cv)) (1 - cv) then
          eint (-1000)
        else plainAtari d (setCell b c.1 c.2.1 c.2.2 (1 - cv)) true cv).foldr
        min ⊤

/-! ### `check_win` restores the board (claim C10) -/

theorem checkWin_board (b : Board) (pv : Int) (m : Coord) :
    (checkWin b pv m).2 = b := by
  simp only [checkWin]
  split
  · split
    · rw [setCell_setCell]
      exact setCell_eq_of_eq b rfl
    · rename_i h
      rw [not_not] at h
      exact setCell_eq_of_eq b h
  · rw [setCell_setCell]
    exact setCell_eq_of_eq b rfl

theorem checkWin_fst (b : Board) (pv : Int) (m : Coord) :
    (checkWin b pv m).1 = hasWin (setCell b m.1 m.2.1 m.2.2 pv) pv := by
  simp only [checkWin]
  split
  · rename_i h; exact h.symm
  · rename_i h; exact (Bool.eq_false_iff.mpr h).symm

theorem checkWin_fst_place (b : Board) (pv : Int) (c : Coord) :
    (checkWin (setCell b c.1 c.2.1 c.2.2 pv) pv c).1 =
      hasWin (setCell b c.1 c.2.1 c.2.2 pv) pv := by
  rw [checkWin_fst, setCell_setCell]

/-! ### The board is restored on every exit path of `minimax` (claim C2) -/

theorem maxLoop_board (next : Board → EInt → EInt × Board) (cv : Int)
    (β : EInt) (hnext : ∀ b' α', (next b' α').2 = b') :
    ∀ (cells : List Coord) (b : Board) (α ms : EInt),
      (maxLoop next cv β cells b α ms).2 = b := by
  intro cells
  induction cells with
  | nil => intro b α ms; rfl
  | cons c rest ih =>
    intro b α ms
    simp only [maxLoop]
    split
    · rename_i hempty
      rw [checkWin_board, hnext]
      have hundo : setCell (setCell b c.1 c.2.1 c.2.2 cv) c.1 c.2.1 c.2.2
          (-1) = b := by
        rw [setCell_setCell]
        exact setCell_eq_of_eq b hempty
      rw [hundo]
      split
      · rfl
      · split
        · rfl
        · exact ih b _ _
    · exact ih b α ms

theorem minLoop_board (next : Board → EInt → EInt × Board) (cv : Int)
    (α : EInt) (hnext : ∀ b' β', (next b' β').2 = b') :
    ∀ (cells : List Coord) (b : Board) (β ms : EInt),
      (minLoop next cv α cells b β ms).2 = b := by
  intro cells
  induction cells with
  | nil => intro b β ms; rfl
  | cons c rest ih =>
    intro b β ms
    simp only [minLoop]
    split
    · rename_i hempty
      rw [checkWin_board, hnext]
      have hundo : setCell (setCell b c.1 c.2.1 c.2.2 (1 - cv)) c.1 c.2.1
          c.2.2 (-1) = b := by
        rw [setCell_setCell]
        exact setCell_eq_of_eq b hempty
      rw [hundo]
      split
      · rfl
      · split
        · rfl
        · exact ih b _ _
    · exact ih b β ms

/-- `AtariTicTacToe3D.minimax` returns the board exactly as it found it, on
every exit path. -/
theorem minimax_board :
    ∀ (d : Nat) (b : Board) (α β : EInt) (isMax : Bool) (cv : Int),
      (minimax d b α β isMax cv).2 = b := by
  intro d
  induction d with
  | zero => intro b α β isMax cv; rfl
  | succ d ih =>
    intro b α β isMax cv
    simp only [minimax]
    split
    · rfl
    · split
      · exact maxLoop_board _ cv β (fun b' α' => ih b' α' β false cv)
          allCells b α ⊥
      · exact minLoop_board _ cv α (fun b' β' => ih b' α β' true cv)
          allCells b β ⊤

/-! ### Piece counting and the static-evaluation bound (claims C1, C7) -/

/-- Number of board cells holding value `v`. -/
def countVal (b : Board) (v : Int) : Nat :=
  allCells.countP fun c => b c.1 c.2.1 c.2.2 = v

/-- Occurrences of `pv` along one combination. -/
def lineCount (b : Board) (pv : Int) (combo : List Coord) : Nat :=
  combo.countP fun c => b c.1 c.2.1 c.2.2 = pv

/-- Per-combination contribution of `evaluate_board`. -/
def lineScore (b : Board) (cv : Int) (combo : List Coord) : Int :=
  if 0 < lineCount b cv combo ∧ lineCount b (1 - cv) combo = 0 then
    (lineCount b cv combo : Int) ^ 2
  else if 0 < lineCount b (1 - cv) combo ∧ lineCount b cv combo = 0 then
    -((lineCount b (1 - cv) combo : Int) ^ 2)
  else 0

/-- Total occurrences of `pv` over all 76 combinations, with multiplicity. -/
def totalCount (b : Board) (pv : Int) : Nat :=
  (winningLines.map (lineCount b pv)).sum

theorem foldl_add_map_sum {α : Type} (g : α → Int) (step : Int → α → Int)
    (hstep : ∀ s c, step s c = s + g c) :
    ∀ (L : List α) (a : Int), L.foldl step a = a + (L.map g).sum := by
  intro L
  induction L with
  | nil => intro a; simp
  | cons c L ih =>
    intro a
    rw [List.foldl_cons, hstep, ih, List.map_cons, List.sum_cons]
    ring

theorem evaluateBoard_eq_sum (b : Board) (cv : Int) :
    evaluateBoard b cv = (winningLines.map (lineScore b cv)).sum := by
  rw [show (winningLines.map (lineScore b cv)).sum =
      0 + (winningLines.map (lineScore b cv)).sum from (zero_add _).symm]
  unfold evaluateBoard
  apply foldl_add_map_sum
  intro s combo
  simp only [lineScore, lineCount]
  split
  · rfl
  · split
    · rw [sub_eq_add_neg]
    · rw [add_zero]

theorem winningLines_length_four :
    ∀ combo ∈ winningLines, combo.length = 4 := by decide

theorem lineScore_le_four_mul (b : Board) (cv : Int) (combo : List Coord)
    (h4 : combo.length = 4) :
    lineScore b cv combo ≤ 4 * (lineCount b cv combo : Int) := by
  have hcc : lineCount b cv combo ≤ 4 := by
    simpa [lineCount, h4] using
      List.countP_le_length (l := combo)
        (p := fun c => decide (b c.1 c.2.1 c.2.2 = cv))
  have hcc' : (lineCount b cv combo : Int) ≤ 4 := by exact_mod_cast hcc
  have hnn : (0 : Int) ≤ (lineCount b cv combo : Int) := Int.natCast_nonneg _
  simp only [lineScore]
  split
  · nlinarith
  · split
    · nlinarith
    · nlinarith

theorem neg_four_mul_le_lineScore (b : Board) (cv : Int) (combo : List Coord)
    (h4 : combo.length = 4) :
    -(4 * (lineCount b (1 - cv) combo : Int)) ≤ lineScore b cv combo := by
  have hhc : lineCount b (1 - cv) combo ≤ 4 := by
    simpa [lineCount, h4] using
      List.countP_le_length (l := combo)
        (p := fun c => decide (b c.1 c.2.1 c.2.2 = 1 - cv))
  have hhc' : (lineCount b (1 - cv) combo : Int) ≤ 4 := by exact_mod_cast hhc
  have hnn : (0 : Int) ≤ (lineCount b (1 - cv) combo : Int) :=
    Int.natCast_nonneg _
  have hnn2 : (0 : Int) ≤ (lineCount b cv combo : Int) := Int.natCast_nonneg _
  simp only [lineScore]
  split
  · nlinarith
  · split
    · nlinarith
    · nlinarith

theorem sum_countP_flatten (p : Coord → Bool) :
    ∀ (G : List (List Coord)),
      (G.map fun l => l.countP p).sum = G.flatten.countP p := by
  intro G
  induction G with
  | nil => rfl
  | cons l G ih =>
    rw [List.map_cons, List.sum_cons, List.flatten_cons, List.countP_append,
      ih]

theorem block_countP_le (p : Coord → Bool) (G : List (List Coord))
    (hnd : G.flatten.Nodup) (hsub : ∀ a ∈ G.flatten, a ∈ allCells) :
    (G.map fun l => l.countP p).sum ≤ allCells.countP p := by
  rw [sum_countP_flatten]
  exact (List.Nodup.subperm hnd hsub).countP_le p

theorem totalCount_le_seven_mul (b : Board) (pv : Int) :
    totalCount b pv ≤ 7 * countVal b pv := by
  have h1 := block_countP_le (fun c => decide (b c.1 c.2.1 c.2.2 = pv))
    rowLines (by decide) (by decide)
  have h2 := block_countP_le (fun c => decide (b c.1 c.2.1 c.2.2 = pv))
    colLines (by decide) (by decide)
  have h3 := block_countP_le (fun c => decide (b c.1 c.2.1 c.2.2 = pv))
    layerDiagLines (by decide) (by decide)
  have h4 := block_countP_le (fun c => decide (b c.1 c.2.1 c.2.2 = pv))
    verticalLines (by decide) (by decide)
  have h5 := block_countP_le (fun c => decide (b c.1 c.2.1 c.2.2 = pv))
    yzDiagLines (by decide) (by decide)
  have h6 := block_countP_le (fun c => decide (b c.1 c.2.1 c.2.2 = pv))
    xzDiagLines (by decide) (by decide)
  have h7 := block_countP_le (fun c => decide (b c.1 c.2.1 c.2.2 = pv))
    spaceDiagLines (by decide) (by decide)
  have hsplit : totalCount b pv =
      (rowLines.map (lineCount b pv)).sum +
      (colLines.map (lineCount b pv)).sum +
      (layerDiagLines.map (lineCount b pv)).sum +
      (verticalLines.map (lineCount b pv)).sum +
      (yzDiagLines.map (lineCount b pv)).sum +
      (xzDiagLines.map (lineCount b pv)).sum +
      (spaceDiagLines.map (lineCount b pv)).sum := by
    simp [totalCount, winningLines, List.map_append, List.sum_append]
    ring
  have hline : ∀ G : List (List Coord), (G.map (lineCount b pv)).sum =
      (G.map fun l =>
        l.countP fun c => decide (b c.1 c.2.1 c.2.2 = pv)).sum := by
    intro G; rfl
  rw [hsplit, hline rowLines, hline colLines, hline layerDiagLines,
    hline verticalLines, hline yzDiagLines, hline xzDiagLines,
    hline spaceDiagLines]
  have hcv : countVal b pv =
      allCells.countP fun c => decide (b c.1 c.2.1 c.2.2 = pv) := rfl
  omega

theorem natCast_sum_list :
    ∀ (l : List Nat),
      ((l.sum : Nat) : Int) = (l.map fun n : Nat => (n : Int)).sum := by
  intro l
  induction l with
  | nil => rfl
  | cons n l ih =>
    rw [List.sum_cons, List.map_cons, List.sum_cons, Nat.cast_add, ih]

theorem sum_four_mul (b : Board) (pv : Int) :
    ∀ L : List (List Coord),
      (L.map fun combo => 4 * (lineCount b pv combo : Int)).sum =
        4 * ((L.map (lineCount b pv)).sum : Int) := by
  intro L
  induction L with
  | nil => simp
  | cons c L ih =>
    rw [List.map_cons, List.sum_cons, List.map_cons, List.sum_cons, ih,
      Nat.cast_add]
    ring

theorem sum_neg_four_mul (b : Board) (pv : Int) :
    ∀ L : List (List Coord),
      (L.map fun combo => -(4 * (lineCount b pv combo : Int))).sum =
        -(4 * ((L.map (lineCount b pv)).sum : Int)) := by
  intro L
  induction L with
  | nil => simp
  | cons c L ih =>
    rw [List.map_cons, List.sum_cons, List.map_cons, List.sum_cons, ih,
      Nat.cast_add]
    ring

theorem evaluateBoard_le (b : Board) (cv : Int) :
    evaluateBoard b cv ≤ 4 * (totalCount b cv : Int) := by
  rw [evaluateBoard_eq_sum]
  have h1 : (winningLines.map (lineScore b cv)).sum ≤
      (winningLines.map fun combo =>
        4 * (lineCount b cv combo : Int)).sum :=
    List.sum_le_sum fun combo hc =>
      lineScore_le_four_mul b cv combo (winningLines_length_four combo hc)
  rw [sum_four_mul b cv winningLines] at h1
  exact h1

theorem neg_le_evaluateBoard (b : Board) (cv : Int) :
    -(4 * (totalCount b (1 - cv) : Int)) ≤ evaluateBoard b cv := by
  rw [evaluateBoard_eq_sum]
  have h1 : (winningLines.map fun combo =>
      -(4 * (lineCount b (1 - cv) combo : Int))).sum ≤
      (winningLines.map (lineScore b cv)).sum :=
    List.sum_le_sum fun combo hc =>
      neg_four_mul_le_lineScore b cv combo (winningLines_length_four combo hc)
  rw [sum_neg_four_mul b (1 - cv) winningLines] at h1
  exact h1

theorem allCells_nodup : allCells.Nodup := by decide

theorem allCells_length : allCells.length = 64 := by decide

theorem setCell_apply_self (b : Board) (z y x : Nat) (v : Int) :
    setCell b z y x v z y x = v := by
  simp [setCell]

theorem setCell_apply_ne (b : Board) (z y x : Nat) (v : Int)
    {z' y' x' : Nat} (h : ¬(z' = z ∧ y' = y ∧ x' = x)) :
    setCell b z y x v z' y' x' = b z' y' x' := by
  simp [setCell, h]

theorem countP_congr_eq (p q : Coord → Bool) :
    ∀ l : List Coord, (∀ x ∈ l, p x = q x) → l.countP p = l.countP q := by
  intro l
  induction l with
  | nil => intro _; rfl
  | cons a l ih =>
    intro h
    rw [List.countP_cons, List.countP_cons,
      ih (fun x hx => h x (List.mem_cons_of_mem _ hx)),
      h a (List.mem_cons_self _ _)]

theorem countP_pointwise (p q : Coord → Bool) :
    ∀ (l : List Coord), l.Nodup → ∀ c, c ∈ l →
      (∀ a ∈ l, a ≠ c → p a = q a) →
      l.countP p + (if q c then 1 else 0) =
        l.countP q + (if p c then 1 else 0) := by
  intro l
  induction l with
  | nil => intro _ c hc; cases hc
  | cons a l ih =>
    intro hnd c hc hagree
    rcases List.mem_cons.mp hc with rfl | hc'
    · have hnotin : c ∉ l := (List.nodup_cons.mp hnd).1
      have heq : l.countP p = l.countP q :=
        countP_congr_eq p q l fun x hx =>
          hagree x (List.mem_cons_of_mem _ hx) (fun h => hnotin (h ▸ hx))
      rw [List.countP_cons, List.countP_cons, heq]
      by_cases hp : p c <;> by_cases hq : q c <;> simp [hp, hq]
    · have hanec : a ≠ c := fun h => (List.nodup_cons.mp hnd).1 (h ▸ hc')
      have hpa : p a = q a := hagree a (List.mem_cons_self _ _) hanec
      have hrec := ih (List.nodup_cons.mp hnd).2 c hc'
        (fun x hx hxc => hagree x (List.mem_cons_of_mem _ hx) hxc)
      rw [List.countP_cons, List.countP_cons, hpa]
      omega

theorem coord_eq_of_parts {a c : Coord}
    (h : a.1 = c.1 ∧ a.2.1 = c.2.1 ∧ a.2.2 = c.2.2) : a = c := by
  obtain ⟨a1, a2, a3⟩ := a
  obtain ⟨c1, c2, c3⟩ := c
  simp only at h
  simp [h.1, h.2.1, h.2.2]

theorem countVal_setCell_self (b : Board) (c : Coord) (hc : c ∈ allCells)
    (v : Int) (hne : ¬b c.1 c.2.1 c.2.2 = v) :
    countVal (setCell b c.1 c.2.1 c.2.2 v) v = countVal b v + 1 := by
  have key := countP_pointwise
    (fun a => decide (setCell b c.1 c.2.1 c.2.2 v a.1 a.2.1 a.2.2 = v))
    (fun a => decide (b a.1 a.2.1 a.2.2 = v))
    allCells allCells_nodup c hc
    (fun a _ hac => by
      show decide (setCell b c.1 c.2.1 c.2.2 v a.1 a.2.1 a.2.2 = v) =
        decide (b a.1 a.2.1 a.2.2 = v)
      rw [setCell_apply_ne b c.1 c.2.1 c.2.2 v
        (fun h => hac (coord_eq_of_parts h))])
  simp [setCell_apply_self, hne] at key
  simpa [countVal] using key

theorem countVal_setCell_other (b : Board) (c : Coord) (hc : c ∈ allCells)
    (v w : Int) (hne : ¬b c.1 c.2.1 c.2.2 = w) (hvw : ¬v = w) :
    countVal (setCell b c.1 c.2.1 c.2.2 v) w = countVal b w := by
  have key := countP_pointwise
    (fun a => decide (setCell b c.1 c.2.1 c.2.2 v a.1 a.2.1 a.2.2 = w))
    (fun a => decide (b a.1 a.2.1 a.2.2 = w))
    allCells allCells_nodup c hc
    (fun a _ hac => by
      show decide (setCell b c.1 c.2.1 c.2.2 v a.1 a.2.1 a.2.2 = w) =
        decide (b a.1 a.2.1 a.2.2 = w)
      rw [setCell_apply_ne b c.1 c.2.1 c.2.2 v
        (fun h => hac (coord_eq_of_parts h))])
  simp [setCell_apply_self, hne, hvw] at key
  simpa [countVal] using key

theorem countP_add_countP_le (p q : Coord → Bool)
    (h : ∀ a, ¬(p a = true ∧ q a = true)) :
    ∀ l : List Coord, l.countP p + l.countP q ≤ l.length := by
  intro l
  induction l with
  | nil => simp
  | cons a l ih =>
    rw [List.countP_cons, List.countP_cons, List.length_cons]
    have := h a
    by_cases hp : p a <;> by_cases hq : q a <;> simp [hp, hq] at this ⊢ <;>
      omega

/-- Alternating-play balance at a search node: with the maximizing player
(the computer) to move the computer has placed at most as many pieces as the
human, and symmetrically for the minimizing player.  This is the invariant
every node of a search started from a position reached by alternating play
satisfies. -/
def balanced (b : Board) (isMax : Bool) (cv : Int) : Prop :=
  if isMax then
    countVal b cv = countVal b (1 - cv) ∨
      countVal b (1 - cv) = countVal b cv + 1
  else
    countVal b cv = countVal b (1 - cv) ∨
      countVal b cv = countVal b (1 - cv) + 1

theorem balanced_place_max {b : Board} {cv : Int} (hcv : cv = 0 ∨ cv = 1)
    {c : Coord} (hc : c ∈ allCells) (hempty : b c.1 c.2.1 c.2.2 = -1)
    (hbal : balanced b true cv) :
    balanced (setCell b c.1 c.2.1 c.2.2 cv) false cv := by
  have hnecv : ¬b c.1 c.2.1 c.2.2 = cv := by
    rcases hcv with h | h <;> rw [hempty, h] <;> norm_num
  have hnehv : ¬b c.1 c.2.1 c.2.2 = 1 - cv := by
    rcases hcv with h | h <;> rw [hempty, h] <;> norm_num
  have hvw : ¬cv = 1 - cv := by rcases hcv with h | h <;> rw [h] <;> norm_num
  have h1 := countVal_setCell_self b c hc cv hnecv
  have h2 := countVal_setCell_other b c hc cv (1 - cv) hnehv hvw
  have hbal' : countVal b cv = countVal b (1 - cv) ∨
      countVal b (1 - cv) = countVal b cv + 1 := hbal
  show countVal (setCell b c.1 c.2.1 c.2.2 cv) cv =
      countVal (setCell b c.1 c.2.1 c.2.2 cv) (1 - cv) ∨
    countVal (setCell b c.1 c.2.1 c.2.2 cv) cv =
      countVal (setCell b c.1 c.2.1 c.2.2 cv) (1 - cv) + 1
  rw [h1, h2]
  rcases hbal' with h | h
  · omega
  · omega

theorem balanced_place_min {b : Board} {cv : Int} (hcv : cv = 0 ∨ cv = 1)
    {c : Coord} (hc : c ∈ allCells) (hempty : b c.1 c.2.1 c.2.2 = -1)
    (hbal : balanced b false cv) :
    balanced (setCell b c.1 c.2.1 c.2.2 (1 - cv)) true cv := by
  have hnecv : ¬b c.1 c.2.1 c.2.2 = cv := by
    rcases hcv with h | h <;> rw [hempty, h] <;> norm_num
  have hnehv : ¬b c.1 c.2.1 c.2.2 = 1 - cv := by
    rcases hcv with h | h <;> rw [hempty, h] <;> norm_num
  have hvw : ¬1 - cv = cv := by rcases hcv with h | h <;> rw [h] <;> norm_num
  have h1 := countVal_setCell_self b c hc (1 - cv) hnehv
  have h2 := countVal_setCell_other b c hc (1 - cv) cv hnecv hvw
  have hbal' : countVal b cv = countVal b (1 - cv) ∨
      countVal b cv = countVal b (1 - cv) + 1 := hbal
  show countVal (setCell b c.1 c.2.1 c.2.2 (1 - cv)) cv =
      countVal (setCell b c.1 c.2.1 c.2.2 (1 - cv)) (1 - cv) ∨
    countVal (setCell b c.1 c.2.1 c.2.2 (1 - cv)) (1 - cv) =
      countVal (setCell b c.1 c.2.1 c.2.2 (1 - cv)) cv + 1
  rw [h1, h2]
  rcases hbal' with h | h
  · omega
  · omega

theorem balanced_counts {b : Board} {f : Bool} {cv : Int}
    (hcv : cv = 0 ∨ cv = 1) (hbal : balanced b f cv) :
    countVal b cv ≤ 32 ∧ countVal b (1 - cv) ≤ 32 := by
  have hdisj : ∀ a : Coord,
      ¬((decide (b a.1 a.2.1 a.2.2 = cv)) = true ∧
        (decide (b a.1 a.2.1 a.2.2 = 1 - cv)) = true) := by
    intro a hand
    simp only [decide_eq_true_eq] at hand
    have := hand.1 ▸ hand.2
    rcases hcv with h | h <;> rw [h] at this <;> norm_num at this
  have hsum := countP_add_countP_le _ _ hdisj allCells
  rw [allCells_length] at hsum
  have hsum' : countVal b cv + countVal b (1 - cv) ≤ 64 := hsum
  unfold balanced at hbal
  cases f
  · simp only [Bool.false_eq_true, if_false] at hbal
    omega
  · simp only [if_true] at hbal
    omega

/-- On every board reached from an alternating-play position the
squared-count evaluation stays strictly inside the ±1000 win scores. -/
theorem evaluateBoard_bounds {b : Board} {f : Bool} {cv : Int}
    (hcv : cv = 0 ∨ cv = 1) (hbal : balanced b f cv) :
    -896 ≤ evaluateBoard b cv ∧ evaluateBoard b cv ≤ 896 := by
  obtain ⟨hcnt1, hcnt2⟩ := balanced_counts hcv hbal
  have ht1 : totalCount b cv ≤ 224 :=
    le_trans (totalCount_le_seven_mul b cv) (by omega)
  have ht2 : totalCount b (1 - cv) ≤ 224 :=
    le_trans (totalCount_le_seven_mul b (1 - cv)) (by omega)
  have ht1' : (totalCount b cv : Int) ≤ 224 := by exact_mod_cast ht1
  have ht2' : (totalCount b (1 - cv) : Int) ≤ 224 := by exact_mod_cast ht2
  have hub := evaluateBoard_le b cv
  have hlb := neg_le_evaluateBoard b cv
  constructor <;> linarith

theorem foldr_max_le {hi : EInt} (hbot : (⊥ : EInt) ≤ hi) :
    ∀ l : List EInt, (∀ v ∈ l, v ≤ hi) → l.foldr max ⊥ ≤ hi := by
  intro l
  induction l with
  | nil => intro _; exact hbot
  | cons v l ih =>
    intro h
    exact max_le (h v (List.mem_cons_self _ _))
      (ih fun u hu => h u (List.mem_cons_of_mem _ hu))

theorem le_foldr_max {lo : EInt} :
    ∀ l : List EInt, l ≠ [] → (∀ v ∈ l, lo ≤ v) → lo ≤ l.foldr max ⊥ := by
  intro l
  induction l with
  | nil => intro h; exact absurd rfl h
  | cons v l _ =>
    intro _ h
    exact le_max_of_le_left (h v (List.mem_cons_self _ _))

theorem le_foldr_min {lo : EInt} (htop : lo ≤ (⊤ : EInt)) :
    ∀ l : List EInt, (∀ v ∈ l, lo ≤ v) → lo ≤ l.foldr min ⊤ := by
  intro l
  induction l with
  | nil => intro _; exact htop
  | cons v l ih =>
    intro h
    exact le_min (h v (List.mem_cons_self _ _))
      (ih fun u hu => h u (List.mem_cons_of_mem _ hu))

theorem foldr_min_le {hi : EInt} :
    ∀ l : List EInt, l ≠ [] → (∀ v ∈ l, v ≤ hi) → l.foldr min ⊤ ≤ hi := by
  intro l
  induction l with
  | nil => intro h; exact absurd rfl h
  | cons v l _ =>
    intro _ h
    exact min_le_of_left_le (h v (List.mem_cons_self _ _))

theorem notFull_exists_empty {b : Board} (h : isBoardFull b = false) :
    ∃ c ∈ allCells, b c.1 c.2.1 c.2.2 = -1 := by
  by_contra hno
  push_neg at hno
  have : isBoardFull b = true := by
    unfold isBoardFull
    rw [List.all_eq_true]
    intro c hcmem
    simpa using hno c hcmem
  rw [this] at h
  cases h

theorem notFull_filter_ne_nil {b : Board} (h : isBoardFull b = false) :
    (allCells.filter fun c => b c.1 c.2.1 c.2.2 = -1) ≠ [] := by
  obtain ⟨c, hcm, hcv⟩ := notFull_exists_empty h
  intro hnil
  have hmem : c ∈ allCells.filter fun c => b c.1 c.2.1 c.2.2 = -1 :=
    List.mem_filter.mpr ⟨hcm, by simp [hcv]⟩
  rw [hnil] at hmem
  cases hmem

theorem eint_le_of_le {m n : ℤ} (h : m ≤ n) : eint m ≤ eint n :=
  eint_le_eint.mpr h

/-- Every `plainAtari` value of a balanced node lies in `[-1000, 1000]`. -/
theorem plainAtari_bounds {cv : Int} (hcv : cv = 0 ∨ cv = 1) :
    ∀ (d : Nat) (b : Board) (f : Bool), balanced b f cv →
      eint (-1000) ≤ plainAtari d b f cv ∧ plainAtari d b f cv ≤ eint 1000 := by
  intro d
  induction d with
  | zero =>
    intro b f hbal
    obtain ⟨h1, h2⟩ := evaluateBoard_bounds hcv hbal
    exact ⟨eint_le_of_le (by linarith), eint_le_of_le (by linarith)⟩
  | succ d ih =>
    intro b f hbal
    by_cases hfull : isBoardFull b = true
    · simp only [plainAtari]
      rw [if_pos hfull]
      obtain ⟨h1, h2⟩ := evaluateBoard_bounds hcv hbal
      exact ⟨eint_le_of_le (by linarith), eint_le_of_le (by linarith)⟩
    · have hfull' : isBoardFull b = false := Bool.eq_false_iff.mpr hfull
      have hne := notFull_filter_ne_nil hfull'
      simp only [plainAtari]
      rw [if_neg hfull]
      cases f
      · rw [if_neg (by simp)]
        have hvals : ∀ v ∈ (allCells.filter fun c =>
            b c.1 c.2.1 c.2.2 = -1).map fun c =>
              if hasWin (setCell b c.1 c.2.1 c.2.2 (1 - cv)) (1 - cv) then
                eint (-1000)
              else plainAtari d (setCell b c.1 c.2.1 c.2.2 (1 - cv)) true cv,
            eint (-1000) ≤ v ∧ v ≤ eint 1000 := by
          intro v hv
          obtain ⟨c, hcmem, rfl⟩ := List.mem_map.mp hv
          have hcm := (List.mem_filter.mp hcmem).1
          have hce : b c.1 c.2.1 c.2.2 = -1 :=
            of_decide_eq_true (List.mem_filter.mp hcmem).2
          split
          · exact ⟨le_refl _, eint_le_of_le (by norm_num)⟩
          · exact ih _ _ (balanced_place_min hcv hcm hce hbal)
        constructor
        · exact le_foldr_min le_top _ (fun v hv => (hvals v hv).1)
        · refine foldr_min_le _ (by simpa using hne) ?_
          intro v hv
          exact (hvals v hv).2
      · rw [if_pos rfl]
        have hvals : ∀ v ∈ (allCells.filter fun c =>
            b c.1 c.2.1 c.2.2 = -1).map fun c =>
              if hasWin (setCell b c.1 c.2.1 c.2.2 cv) cv then eint 1000
              else plainAtari d (setCell b c.1 c.2.1 c.2.2 cv) false cv,
            eint (-1000) ≤ v ∧ v ≤ eint 1000 := by
          intro v hv
          obtain ⟨c, hcmem, rfl⟩ := List.mem_map.mp hv
          have hcm := (List.mem_filter.mp hcmem).1
          have hce : b c.1 c.2.1 c.2.2 = -1 :=
            of_decide_eq_true (List.mem_filter.mp hcmem).2
          split
          · exact ⟨eint_le_of_le (by norm_num), le_refl _⟩
          · exact ih _ _ (balanced_place_max hcv hcm hce hbal)
        constructor
        · refine le_foldr_max _ (by simpa using hne) ?_
          intro v hv
          exact (hvals v hv).1
        · exact foldr_max_le bot_le _ (fun v hv => (hvals v hv).2)

theorem maxLoop_bounds (next : Board → EInt → EInt × Board) (cv : Int)
    (β : EInt) (hnext : ∀ b' α', (next b' α').2 = b') :
    ∀ (cells : List Coord) (b : Board),
      (∀ c ∈ cells, b c.1 c.2.1 c.2.2 = -1 →
        hasWin (setCell b c.1 c.2.1 c.2.2 cv) cv = false → ∀ α',
        eint (-1000) ≤ (next (setCell b c.1 c.2.1 c.2.2 cv) α').1 ∧
          (next (setCell b c.1 c.2.1 c.2.2 cv) α').1 ≤ eint 1000) →
      ∀ (α ms : EInt), ms ≤ eint 1000 →
        ((maxLoop next cv β cells b α ms).1 ≤ eint 1000 ∧
         ms ≤ (maxLoop next cv β cells b α ms).1 ∧
         ((∃ c ∈ cells, b c.1 c.2.1 c.2.2 = -1) →
           eint (-1000) ≤ (maxLoop next cv β cells b α ms).1)) := by
  intro cells
  induction cells with
  | nil =>
    intro b _ α ms hms
    exact ⟨hms, le_refl _, fun ⟨c, hc, _⟩ => absurd hc (List.not_mem_nil c)⟩
  | cons c rest ih =>
    intro b hchild α ms hms
    by_cases hce : b c.1 c.2.1 c.2.2 = -1
    · have hundo : setCell (setCell b c.1 c.2.1 c.2.2 cv) c.1 c.2.1 c.2.2
          (-1) = b := by
        rw [setCell_setCell]
        exact setCell_eq_of_eq b hce
      have hrest := ih b
        (fun c' hc' => hchild c' (List.mem_cons_of_mem _ hc'))
      simp only [maxLoop]
      rw [if_pos hce, checkWin_board, hnext, hundo]
      split
      · exact ⟨le_refl _, hms,
          fun _ => eint_le_of_le (by norm_num)⟩
      · rename_i hwin
        have hw : hasWin (setCell b c.1 c.2.1 c.2.2 cv) cv = false := by
          rw [← checkWin_fst_place b cv c]
          exact Bool.eq_false_iff.mpr hwin
        have hs := hchild c (List.mem_cons_self _ _) hce hw α
        split
        · refine ⟨max_le hms hs.2, le_max_left _ _,
            fun _ => le_max_of_le_right hs.1⟩
        · obtain ⟨u1, u2, _⟩ := hrest (max α
            (next (setCell b c.1 c.2.1 c.2.2 cv) α).1)
            (max ms (next (setCell b c.1 c.2.1 c.2.2 cv) α).1)
            (max_le hms hs.2)
          exact ⟨u1, (le_max_left ms _).trans u2,
            fun _ => hs.1.trans ((le_max_right ms _).trans u2)⟩
    · have hrest := ih b
        (fun c' hc' => hchild c' (List.mem_cons_of_mem _ hc'))
      simp only [maxLoop]
      rw [if_neg hce]
      obtain ⟨u1, u2, u3⟩ := hrest α ms hms
      refine ⟨u1, u2, fun ⟨c', hc', he'⟩ => u3 ⟨c', ?_, he'⟩⟩
      rcases List.mem_cons.mp hc' with rfl | hc''
      · exact absurd he' hce
      · exact hc''

theorem minLoop_bounds (next : Board → EInt → EInt × Board) (cv : Int)
    (α : EInt) (hnext : ∀ b' β', (next b' β').2 = b') :
    ∀ (cells : List Coord) (b : Board),
      (∀ c ∈ cells, b c.1 c.2.1 c.2.2 = -1 →
        hasWin (setCell b c.1 c.2.1 c.2.2 (1 - cv)) (1 - cv) = false →
        ∀ β',
        eint (-1000) ≤ (next (setCell b c.1 c.2.1 c.2.2 (1 - cv)) β').1 ∧
          (next (setCell b c.1 c.2.1 c.2.2 (1 - cv)) β').1 ≤ eint 1000) →
      ∀ (β ms : EInt), eint (-1000) ≤ ms →
        (eint (-1000) ≤ (minLoop next cv α cells b β ms).1 ∧
         (minLoop next cv α cells b β ms).1 ≤ ms ∧
         ((∃ c ∈ cells, b c.1 c.2.1 c.2.2 = -1) →
           (minLoop next cv α cells b β ms).1 ≤ eint 1000)) := by
  intro cells
  induction cells with
  | nil =>
    intro b _ β ms hms
    exact ⟨hms, le_refl _, fun ⟨c, hc, _⟩ => absurd hc (List.not_mem_nil c)⟩
  | cons c rest ih =>
    intro b hchild β ms hms
    by_cases hce : b c.1 c.2.1 c.2.2 = -1
    · have hundo : setCell (setCell b c.1 c.2.1 c.2.2 (1 - cv)) c.1 c.2.1
          c.2.2 (-1) = b := by
        rw [setCell_setCell]
        exact setCell_eq_of_eq b hce
      have hrest := ih b
        (fun c' hc' => hchild c' (List.mem_cons_of_mem _ hc'))
      simp only [minLoop]
      rw [if_pos hce, checkWin_board, hnext, hundo]
      split
      · exact ⟨le_refl _, hms, fun _ => eint_le_of_le (by norm_num)⟩
      · rename_i hwin
        have hw : hasWin (setCell b c.1 c.2.1 c.2.2 (1 - cv)) (1 - cv) =
            false := by
          rw [← checkWin_fst_place b (1 - cv) c]
          exact Bool.eq_false_iff.mpr hwin
        have hs := hchild c (List.mem_cons_self _ _) hce hw β
        split
        · refine ⟨le_min hms hs.1, min_le_left _ _,
            fun _ => min_le_of_right_le hs.2⟩
        · obtain ⟨u1, u2, _⟩ := hrest (min β
            (next (setCell b c.1 c.2.1 c.2.2 (1 - cv)) β).1)
            (min ms (next (setCell b c.1 c.2.1 c.2.2 (1 - cv)) β).1)
            (le_min hms hs.1)
          exact ⟨u1, u2.trans (min_le_left ms _),
            fun _ => (u2.trans (min_le_right ms _)).trans hs.2⟩
    · have hrest := ih b
        (fun c' hc' => hchild c' (List.mem_cons_of_mem _ hc'))
      simp only [minLoop]
      rw [if_neg hce]
      obtain ⟨u1, u2, u3⟩ := hrest β ms hms
      refine ⟨u1, u2, fun ⟨c', hc', he'⟩ => u3 ⟨c', ?_, he'⟩⟩
      rcases List.mem_cons.mp hc' with rfl | hc''
      · exact absurd he' hce
      · exact hc''

/-- Every score `Atari.minimax` returns from a balanced node lies in
`[-1000, 1000]`. -/
theorem minimax_bounds {cv : Int} (hcv : cv = 0 ∨ cv = 1) :
    ∀ (d : Nat) (b : Board) (α β : EInt) (f : Bool), balanced b f cv →
      eint (-1000) ≤ (minimax d b α β f cv).1 ∧
        (minimax d b α β f cv).1 ≤ eint 1000 := by
  intro d
  induction d with
  | zero =>
    intro b α β f hbal
    obtain ⟨h1, h2⟩ := evaluateBoard_bounds hcv hbal
    exact ⟨eint_le_of_le (by linarith), eint_le_of_le (by linarith)⟩
  | succ d ih =>
    intro b α β f hbal
    by_cases hfull : isBoardFull b = true
    · simp only [minimax]
      rw [if_pos hfull]
      obtain ⟨h1, h2⟩ := evaluateBoard_bounds hcv hbal
      exact ⟨eint_le_of_le (by linarith), eint_le_of_le (by linarith)⟩
    · have hfull' : isBoardFull b = false := Bool.eq_false_iff.mpr hfull
      simp only [minimax]
      rw [if_neg hfull]
      cases f
      · rw [if_neg (by simp)]
        obtain ⟨u1, u2, u3⟩ := minLoop_bounds
          (fun b' β' => minimax d b' α β' true cv) cv α
          (fun b' β' => minimax_board d b' α β' true cv) allCells b
          (fun c hcm hce _ β' =>
            ih (setCell b c.1 c.2.1 c.2.2 (1 - cv)) α β' true
              (balanced_place_min hcv hcm hce hbal))
          β ⊤ le_top
        exact ⟨u1, u3 (notFull_exists_empty hfull')⟩
      · rw [if_pos rfl]
        obtain ⟨u1, u2, u3⟩ := maxLoop_bounds
          (fun b' α' => minimax d b' α' β false cv) cv β
          (fun b' α' => minimax_board d b' α' β false cv) allCells b
          (fun c hcm hce _ α' =>
            ih (setCell b c.1 c.2.1 c.2.2 cv) α' β false
              (balanced_place_max hcv hcm hce hbal))
          α ⊥ bot_le
        exact ⟨u3 (notFull_exists_empty hfull'), u1⟩

/-! ### Fail-soft window invariants of the pruned loops (claim C1)

`vfun c` is the value the unpruned search assigns to the child reached
through cell `c` (`1000` for an immediate win, otherwise the recursive
unpruned value); the hypotheses give the soundness clauses and bounds for
the children, the conclusion re-establishes the clauses for the loop. -/

theorem maxLoop_clauses (next : Board → EInt → EInt × Board) (cv : Int)
    (β : EInt) (hnext : ∀ b' α', (next b' α').2 = b') :
    ∀ (cells : List Coord) (b : Board) (vfun : Coord → EInt),
      (∀ c ∈ cells, b c.1 c.2.1 c.2.2 = -1 →
        (eint (-1000) ≤ vfun c ∧ vfun c ≤ eint 1000) ∧
        (hasWin (setCell b c.1 c.2.1 c.2.2 cv) cv = true →
          vfun c = eint 1000) ∧
        (hasWin (setCell b c.1 c.2.1 c.2.2 cv) cv = false →
          (∀ α', α' < β →
            ((vfun c ≤ α' →
                (next (setCell b c.1 c.2.1 c.2.2 cv) α').1 ≤ α') ∧
             (α' < vfun c → vfun c < β →
                (next (setCell b c.1 c.2.1 c.2.2 cv) α').1 = vfun c) ∧
             (β ≤ vfun c →
                β ≤ (next (setCell b c.1 c.2.1 c.2.2 cv) α').1))) ∧
          (∀ α',
            eint (-1000) ≤ (next (setCell b c.1 c.2.1 c.2.2 cv) α').1 ∧
              (next (setCell b c.1 c.2.1 c.2.2 cv) α').1 ≤ eint 1000))) →
      ∀ (α ms : EInt), α < β → ms ≤ α → ms ≤ eint 1000 →
        ((max ms (((cells.filter fun c =>
              b c.1 c.2.1 c.2.2 = -1).map vfun).foldr max ⊥) ≤ α →
            (maxLoop next cv β cells b α ms).1 ≤ α) ∧
         (α < max ms (((cells.filter fun c =>
              b c.1 c.2.1 c.2.2 = -1).map vfun).foldr max ⊥) →
          max ms (((cells.filter fun c =>
              b c.1 c.2.1 c.2.2 = -1).map vfun).foldr max ⊥) < β →
            (maxLoop next cv β cells b α ms).1 =
              max ms (((cells.filter fun c =>
                b c.1 c.2.1 c.2.2 = -1).map vfun).foldr max ⊥)) ∧
         (β ≤ max ms (((cells.filter fun c =>
              b c.1 c.2.1 c.2.2 = -1).map vfun).foldr max ⊥) →
            β ≤ (maxLoop next cv β cells b α ms).1)) := by
  intro cells
  induction cells with
  | nil =>
    intro b vfun _ α ms hαβ hmsα _
    have hW : max ms (⊥ : EInt) = ms := max_eq_left bot_le
    simp only [List.filter_nil, List.map_nil, List.foldr_nil]
    rw [hW]
    exact ⟨fun _ => hmsα, fun _ _ => rfl,
      fun h3 => absurd (lt_of_lt_of_le hαβ (h3.trans hmsα)) (lt_irrefl α)⟩
  | cons c rest ih =>
    intro b vfun hcell α ms hαβ hmsα hms1000
    by_cases hce : b c.1 c.2.1 c.2.2 = -1
    · obtain ⟨hvb, hvwin, hvrec⟩ := hcell c (List.mem_cons_self _ _) hce
      have hundo : setCell (setCell b c.1 c.2.1 c.2.2 cv) c.1 c.2.1 c.2.2
          (-1) = b := by
        rw [setCell_setCell]
        exact setCell_eq_of_eq b hce
      have hfilter :
          List.filter (fun c => decide (b c.1 c.2.1 c.2.2 = -1)) (c :: rest) =
            c :: List.filter (fun c => decide (b c.1 c.2.1 c.2.2 = -1))
              rest := by
        rw [List.filter_cons]
        simp [hce]
      have hFle : ((rest.filter fun c =>
          b c.1 c.2.1 c.2.2 = -1).map vfun).foldr max ⊥ ≤ eint 1000 := by
        refine foldr_max_le bot_le _ ?_
        intro v hv
        obtain ⟨c', hc', rfl⟩ := List.mem_map.mp hv
        exact (hcell c' (List.mem_cons_of_mem _ (List.mem_filter.mp hc').1)
          (of_decide_eq_true (List.mem_filter.mp hc').2)).1.2
      rw [hfilter]
      simp only [List.map_cons, List.foldr_cons]
      simp only [maxLoop]
      rw [if_pos hce, checkWin_board, hnext, hundo]
      by_cases hwin : (checkWin (setCell b c.1 c.2.1 c.2.2 cv) cv c).1 = true
      · -- the move wins at once: the loop returns 1000, the plain value is
        -- also 1000 because every unpruned value is bounded by 1000
        rw [if_pos hwin]
        rw [checkWin_fst_place] at hwin
        have hv1000 : vfun c = eint 1000 := hvwin hwin
        have hW : max ms (max (vfun c) (((rest.filter fun c =>
            b c.1 c.2.1 c.2.2 = -1).map vfun).foldr max ⊥)) = eint 1000 := by
          rw [hv1000, max_eq_left hFle, max_eq_right hms1000]
        rw [hW]
        exact ⟨fun h1 => h1, fun _ _ => rfl, fun h3 => h3⟩
      · rw [if_neg hwin]
        have hwinF : hasWin (setCell b c.1 c.2.1 c.2.2 cv) cv = false := by
          rw [← checkWin_fst_place b cv c]
          exact Bool.eq_false_iff.mpr hwin
        obtain ⟨hclauses, hbounds⟩ := hvrec hwinF
        obtain ⟨hc1, hc2, hc3⟩ := hclauses α hαβ
        have hsB := hbounds α
        rcases le_or_lt (vfun c) α with hvα | hvα
        · -- child fails low: alpha and the window do not move
          have hsα : (next (setCell b c.1 c.2.1 c.2.2 cv) α).1 ≤ α :=
            hc1 hvα
          rw [max_eq_left hsα, if_neg (not_le.mpr hαβ)]
          have hrec := ih b vfun
            (fun c' hc' => hcell c' (List.mem_cons_of_mem _ hc'))
            α (max ms (next (setCell b c.1 c.2.1 c.2.2 cv) α).1) hαβ
            (max_le hmsα hsα) (max_le hms1000 hsB.2)
          obtain ⟨i1, i2, i3⟩ := hrec
          refine ⟨fun h1 => ?_, fun h2a h2b => ?_, fun h3 => ?_⟩
          · exact i1 (max_le (max_le hmsα hsα)
              (le_of_max_le_right (le_of_max_le_right h1)))
          · have hFα : α < ((rest.filter fun c =>
                b c.1 c.2.1 c.2.2 = -1).map vfun).foldr max ⊥ := by
              rcases le_or_lt (((rest.filter fun c =>
                  b c.1 c.2.1 c.2.2 = -1).map vfun).foldr max ⊥) α with h | h
              · exact absurd h2a
                  (not_lt.mpr (max_le hmsα (max_le hvα h)))
              · exact h
            have hWF : max ms (max (vfun c) (((rest.filter fun c =>
                b c.1 c.2.1 c.2.2 = -1).map vfun).foldr max ⊥)) =
                ((rest.filter fun c =>
                  b c.1 c.2.1 c.2.2 = -1).map vfun).foldr max ⊥ :=
              le_antisymm
                (max_le (hmsα.trans hFα.le)
                  (max_le (hvα.trans hFα.le) (le_refl _)))
                (le_max_of_le_right (le_max_right _ _))
            have hWF' : max (max ms (next (setCell b c.1 c.2.1 c.2.2 cv)
                α).1) (((rest.filter fun c =>
                b c.1 c.2.1 c.2.2 = -1).map vfun).foldr max ⊥) =
                ((rest.filter fun c =>
                  b c.1 c.2.1 c.2.2 = -1).map vfun).foldr max ⊥ :=
              max_eq_right ((max_le hmsα hsα).trans hFα.le)
            rw [hWF] at h2b ⊢
            have := i2 (by rw [hWF']; exact hFα) (by rw [hWF']; exact h2b)
            rw [hWF'] at this
            exact this
          · have hFβ : β ≤ ((rest.filter fun c =>
                b c.1 c.2.1 c.2.2 = -1).map vfun).foldr max ⊥ := by
              rcases le_max_iff.mp h3 with h | h
              · exact absurd (lt_of_lt_of_le hαβ (h.trans hmsα))
                  (lt_irrefl α)
              · rcases le_max_iff.mp h with h' | h'
                · exact absurd (lt_of_lt_of_le hαβ (h'.trans hvα))
                    (lt_irrefl α)
                · exact h'
            exact i3 (hFβ.trans (le_max_right _ _))
        · rcases lt_or_le (vfun c) β with hvβ | hvβ
          · -- child value inside the window: alpha rises to it exactly
            have hsv : (next (setCell b c.1 c.2.1 c.2.2 cv) α).1 = vfun c :=
              hc2 hvα hvβ
            rw [hsv, max_eq_right hvα.le, if_neg (not_le.mpr hvβ),
              max_eq_right (hmsα.trans hvα.le)]
            have hrec := ih b vfun
              (fun c' hc' => hcell c' (List.mem_cons_of_mem _ hc'))
              (vfun c) (vfun c) hvβ (le_refl _) hvb.2
            obtain ⟨i1, i2, i3⟩ := hrec
            have hlow := (maxLoop_bounds next cv β hnext rest b
              (fun c' hc' hce' hw' α' =>
                ((hcell c' (List.mem_cons_of_mem _ hc') hce').2.2 hw').2 α')
              (vfun c) (vfun c) hvb.2).2.1
            have hW : max ms (max (vfun c) (((rest.filter fun c =>
                b c.1 c.2.1 c.2.2 = -1).map vfun).foldr max ⊥)) =
                max (vfun c) (((rest.filter fun c =>
                  b c.1 c.2.1 c.2.2 = -1).map vfun).foldr max ⊥) :=
              max_eq_right (hmsα.trans (hvα.le.trans (le_max_left _ _)))
            rw [hW]
            refine ⟨fun h1 => absurd
              (lt_of_lt_of_le hvα ((le_max_left _ _).trans h1))
              (lt_irrefl α), fun h2a h2b => ?_, fun h3 => ?_⟩
            · rcases le_or_lt (((rest.filter fun c =>
                  b c.1 c.2.1 c.2.2 = -1).map vfun).foldr max ⊥) (vfun c)
                  with hFv | hFv
              · rw [max_eq_left hFv] at h2b ⊢
                exact le_antisymm (i1 (max_le (le_refl _) hFv)) hlow
              · rw [max_eq_right hFv.le] at h2b ⊢
                have := i2 (lt_of_lt_of_le hFv (le_max_right _ _))
                  (by rw [max_eq_right hFv.le]; exact h2b)
                rw [max_eq_right hFv.le] at this
                exact this
            · have hβF : β ≤ ((rest.filter fun c =>
                  b c.1 c.2.1 c.2.2 = -1).map vfun).foldr max ⊥ := by
                rcases le_max_iff.mp h3 with h | h
                · exact absurd (lt_of_le_of_lt h hvβ) (lt_irrefl β)
                · exact h
              exact i3 (hβF.trans (le_max_right _ _))
          · -- child fails high: prune immediately after the update
            have hsβ : β ≤ (next (setCell b c.1 c.2.1 c.2.2 cv) α).1 :=
              hc3 hvβ
            have hαs : α < (next (setCell b c.1 c.2.1 c.2.2 cv) α).1 :=
              lt_of_lt_of_le hαβ hsβ
            rw [max_eq_right hαs.le, if_pos hsβ]
            refine ⟨fun h1 => ?_, fun h2a h2b => ?_,
              fun _ => le_max_of_le_right hsβ⟩
            · exact absurd (lt_of_lt_of_le (hαβ.trans_le hvβ)
                (((le_max_left (vfun c) _).trans (le_max_right ms _)).trans
                  h1)) (lt_irrefl _)
            · exact absurd (lt_of_le_of_lt (hvβ.trans
                ((le_max_left (vfun c) _).trans (le_max_right ms _))) h2b)
                (lt_irrefl β)
    · have hfilter :
          List.filter (fun c => decide (b c.1 c.2.1 c.2.2 = -1)) (c :: rest) =
            List.filter (fun c => decide (b c.1 c.2.1 c.2.2 = -1)) rest := by
        rw [List.filter_cons]
        simp [hce]
      rw [hfilter]
      simp only [maxLoop]
      rw [if_neg hce]
      exact ih b vfun (fun c' hc' => hcell c' (List.mem_cons_of_mem _ hc'))
        α ms hαβ hmsα hms1000

theorem minLoop_clauses (next : Board → EInt → EInt × Board) (cv : Int)
    (α : EInt) (hnext : ∀ b' β', (next b' β').2 = b') :
    ∀ (cells : List Coord) (b : Board) (vfun : Coord → EInt),
      (∀ c ∈ cells, b c.1 c.2.1 c.2.2 = -1 →
        (eint (-1000) ≤ vfun c ∧ vfun c ≤ eint 1000) ∧
        (hasWin (setCell b c.1 c.2.1 c.2.2 (1 - cv)) (1 - cv) = true →
          vfun c = eint (-1000)) ∧
        (hasWin (setCell b c.1 c.2.1 c.2.2 (1 - cv)) (1 - cv) = false →
          (∀ β', α < β' →
            ((vfun c ≤ α →
                (next (setCell b c.1 c.2.1 c.2.2 (1 - cv)) β').1 ≤ α) ∧
             (α < vfun c → vfun c < β' →
                (next (setCell b c.1 c.2.1 c.2.2 (1 - cv)) β').1 =
                  vfun c) ∧
             (β' ≤ vfun c →
                β' ≤ (next (setCell b c.1 c.2.1 c.2.2 (1 - cv)) β').1))) ∧
          (∀ β',
            eint (-1000) ≤
                (next (setCell b c.1 c.2.1 c.2.2 (1 - cv)) β').1 ∧
              (next (setCell b c.1 c.2.1 c.2.2 (1 - cv)) β').1 ≤
                eint 1000))) →
      ∀ (β ms : EInt), α < β → β ≤ ms → eint (-1000) ≤ ms →
        ((min ms (((cells.filter fun c =>
              b c.1 c.2.1 c.2.2 = -1).map vfun).foldr min ⊤) ≤ α →
            (minLoop next cv α cells b β ms).1 ≤ α) ∧
         (α < min ms (((cells.filter fun c =>
              b c.1 c.2.1 c.2.2 = -1).map vfun).foldr min ⊤) →
          min ms (((cells.filter fun c =>
              b c.1 c.2.1 c.2.2 = -1).map vfun).foldr min ⊤) < β →
            (minLoop next cv α cells b β ms).1 =
              min ms (((cells.filter fun c =>
                b c.1 c.2.1 c.2.2 = -1).map vfun).foldr min ⊤)) ∧
         (β ≤ min ms (((cells.filter fun c =>
              b c.1 c.2.1 c.2.2 = -1).map vfun).foldr min ⊤) →
            β ≤ (minLoop next cv α cells b β ms).1)) := by
  intro cells
  induction cells with
  | nil =>
    intro b vfun _ β ms hαβ hβms _
    have hW : min ms (⊤ : EInt) = ms := min_eq_left le_top
    simp only [List.filter_nil, List.map_nil, List.foldr_nil]
    rw [hW]
    exact ⟨fun h1 => h1, fun _ _ => rfl, fun h3 => h3⟩
  | cons c rest ih =>
    intro b vfun hcell β ms hαβ hβms hmsm
    by_cases hce : b c.1 c.2.1 c.2.2 = -1
    · obtain ⟨hvb, hvwin, hvrec⟩ := hcell c (List.mem_cons_self _ _) hce
      have hundo : setCell (setCell b c.1 c.2.1 c.2.2 (1 - cv)) c.1 c.2.1
          c.2.2 (-1) = b := by
        rw [setCell_setCell]
        exact setCell_eq_of_eq b hce
      have hfilter :
          List.filter (fun c => decide (b c.1 c.2.1 c.2.2 = -1)) (c :: rest) =
            c :: List.filter (fun c => decide (b c.1 c.2.1 c.2.2 = -1))
              rest := by
        rw [List.filter_cons]
        simp [hce]
      have hFge : eint (-1000) ≤ ((rest.filter fun c =>
          b c.1 c.2.1 c.2.2 = -1).map vfun).foldr min ⊤ := by
        refine le_foldr_min le_top _ ?_
        intro v hv
        obtain ⟨c', hc', rfl⟩ := List.mem_map.mp hv
        exact (hcell c' (List.mem_cons_of_mem _ (List.mem_filter.mp hc').1)
          (of_decide_eq_true (List.mem_filter.mp hc').2)).1.1
      rw [hfilter]
      simp only [List.map_cons, List.foldr_cons]
      simp only [minLoop]
      rw [if_pos hce, checkWin_board, hnext, hundo]
      by_cases hwin :
          (checkWin (setCell b c.1 c.2.1 c.2.2 (1 - cv)) (1 - cv) c).1 = true
      · rw [if_pos hwin]
        rw [checkWin_fst_place] at hwin
        have hvm : vfun c = eint (-1000) := hvwin hwin
        have hW : min ms (min (vfun c) (((rest.filter fun c =>
            b c.1 c.2.1 c.2.2 = -1).map vfun).foldr min ⊤)) =
            eint (-1000) := by
          rw [hvm, min_eq_left hFge, min_eq_right hmsm]
        rw [hW]
        exact ⟨fun h1 => h1, fun _ _ => rfl, fun h3 => h3⟩
      · rw [if_neg hwin]
        have hwinF : hasWin (setCell b c.1 c.2.1 c.2.2 (1 - cv)) (1 - cv) =
            false := by
          rw [← checkWin_fst_place b (1 - cv) c]
          exact Bool.eq_false_iff.mpr hwin
        obtain ⟨hclauses, hbounds⟩ := hvrec hwinF
        obtain ⟨hc1, hc2, hc3⟩ := hclauses β hαβ
        have hsB := hbounds β
        rcases le_or_lt β (vfun c) with hβv | hβv
        · -- child fails high: beta and the window do not move
          have hsβ : β ≤ (next (setCell b c.1 c.2.1 c.2.2 (1 - cv)) β).1 :=
            hc3 hβv
          rw [min_eq_left hsβ, if_neg (not_le.mpr hαβ)]
          have hrec := ih b vfun
            (fun c' hc' => hcell c' (List.mem_cons_of_mem _ hc'))
            β (min ms (next (setCell b c.1 c.2.1 c.2.2 (1 - cv)) β).1) hαβ
            (le_min hβms hsβ) (le_min hmsm hsB.1)
          obtain ⟨i1, i2, i3⟩ := hrec
          refine ⟨fun h1 => ?_, fun h2a h2b => ?_, fun h3 => ?_⟩
          · have hFα : ((rest.filter fun c =>
                b c.1 c.2.1 c.2.2 = -1).map vfun).foldr min ⊤ ≤ α := by
              rcases min_le_iff.mp h1 with h | h
              · exact absurd (lt_of_lt_of_le hαβ (hβms.trans h))
                  (lt_irrefl α)
              · rcases min_le_iff.mp h with h' | h'
                · exact absurd (lt_of_lt_of_le hαβ (hβv.trans h'))
                    (lt_irrefl α)
                · exact h'
            exact i1 (min_le_of_right_le hFα)
          · have hFβ : min ms (min (vfun c) (((rest.filter fun c =>
                b c.1 c.2.1 c.2.2 = -1).map vfun).foldr min ⊤)) =
                ((rest.filter fun c =>
                  b c.1 c.2.1 c.2.2 = -1).map vfun).foldr min ⊤ := by
              have hFlt : ((rest.filter fun c =>
                  b c.1 c.2.1 c.2.2 = -1).map vfun).foldr min ⊤ < β := by
                rcases lt_or_le (((rest.filter fun c =>
                    b c.1 c.2.1 c.2.2 = -1).map vfun).foldr min ⊤) β
                    with h | h
                · exact h
                · exact absurd h2b (not_lt.mpr
                    (le_min hβms (le_min hβv h)))
              exact le_antisymm
                (min_le_of_right_le (min_le_right _ _))
                (le_min (hFlt.le.trans hβms)
                  (le_min (hFlt.le.trans hβv) (le_refl _)))
            have hFβ' : min (min ms (next (setCell b c.1 c.2.1 c.2.2
                (1 - cv)) β).1) (((rest.filter fun c =>
                b c.1 c.2.1 c.2.2 = -1).map vfun).foldr min ⊤) =
                ((rest.filter fun c =>
                  b c.1 c.2.1 c.2.2 = -1).map vfun).foldr min ⊤ := by
              rw [hFβ] at h2b
              exact min_eq_right (h2b.le.trans (le_min hβms hsβ))
            rw [hFβ] at h2b ⊢
            have := i2 (by rw [hFβ']; rw [hFβ] at h2a; exact h2a)
              (by rw [hFβ']; exact h2b)
            rw [hFβ'] at this
            exact this
          · have hβF : β ≤ ((rest.filter fun c =>
                b c.1 c.2.1 c.2.2 = -1).map vfun).foldr min ⊤ :=
              h3.trans (min_le_right _ _) |>.trans (min_le_right _ _)
            exact i3 (le_min (le_min hβms hsβ) hβF)
        · rcases lt_or_le α (vfun c) with hαv | hαv
          · -- child value inside the window: beta drops to it exactly
            have hsv : (next (setCell b c.1 c.2.1 c.2.2 (1 - cv)) β).1 =
                vfun c := hc2 hαv hβv
            rw [hsv, min_eq_right hβv.le, if_neg (not_le.mpr hαv),
              min_eq_right (hβv.le.trans hβms)]
            have hrec := ih b vfun
              (fun c' hc' => hcell c' (List.mem_cons_of_mem _ hc'))
              (vfun c) (vfun c) hαv (le_refl _) hvb.1
            obtain ⟨i1, i2, i3⟩ := hrec
            have hhigh := (minLoop_bounds next cv α hnext rest b
              (fun c' hc' hce' hw' β' =>
                ((hcell c' (List.mem_cons_of_mem _ hc') hce').2.2 hw').2 β')
              (vfun c) (vfun c) hvb.1).2.1
            have hW : min ms (min (vfun c) (((rest.filter fun c =>
                b c.1 c.2.1 c.2.2 = -1).map vfun).foldr min ⊤)) =
                min (vfun c) (((rest.filter fun c =>
                  b c.1 c.2.1 c.2.2 = -1).map vfun).foldr min ⊤) :=
              min_eq_right ((min_le_left _ _).trans (hβv.le.trans hβms))
            rw [hW]
            refine ⟨fun h1 => ?_, fun h2a h2b => ?_, fun h3 => absurd
              (lt_of_le_of_lt (h3.trans (min_le_left _ _)) hβv)
              (lt_irrefl β)⟩
            · rcases min_le_iff.mp h1 with h | h
              · exact absurd (lt_of_lt_of_le hαv h) (lt_irrefl α)
              · exact i1 (min_le_of_right_le h)
            · rcases le_or_lt (vfun c) (((rest.filter fun c =>
                  b c.1 c.2.1 c.2.2 = -1).map vfun).foldr min ⊤)
                  with hvF | hvF
              · rw [min_eq_left hvF] at h2b ⊢
                exact le_antisymm hhigh (i3 (le_min (le_refl _) hvF))
              · rw [min_eq_right hvF.le] at h2b ⊢
                have := i2 h2a (lt_of_le_of_lt (min_le_right _ _) hvF)
                rw [min_eq_right hvF.le] at this
                exact this
          · -- child fails low: prune immediately after the update
            have hsα : (next (setCell b c.1 c.2.1 c.2.2 (1 - cv)) β).1 ≤
                α := hc1 hαv
            have hsβ : (next (setCell b c.1 c.2.1 c.2.2 (1 - cv)) β).1 <
                β := lt_of_le_of_lt hsα hαβ
            rw [min_eq_right hsβ.le, if_pos hsα]
            refine ⟨fun _ => min_le_of_right_le hsα, fun h2a _ => ?_,
              fun h3 => ?_⟩
            · exact absurd (lt_of_lt_of_le h2a
                ((min_le_right ms _).trans ((min_le_left _ _).trans hαv)))
                (lt_irrefl α)
            · exact absurd (lt_of_lt_of_le hαβ (h3.trans
                ((min_le_right ms _).trans ((min_le_left _ _).trans hαv))))
                (lt_irrefl α)
    · have hfilter :
          List.filter (fun c => decide (b c.1 c.2.1 c.2.2 = -1)) (c :: rest) =
            List.filter (fun c => decide (b c.1 c.2.1 c.2.2 = -1)) rest := by
        rw [List.filter_cons]
        simp [hce]
      rw [hfilter]
      simp only [minLoop]
      rw [if_neg hce]
      exact ih b vfun (fun c' hc' => hcell c' (List.mem_cons_of_mem _ hc'))
        β ms hαβ hβms hmsm

/-- Fail-soft alpha-beta soundness for `AtariTicTacToe3D.minimax`. -/
theorem minimax_clauses {cv : Int} (hcv : cv = 0 ∨ cv = 1) :
    ∀ (d : Nat) (b : Board) (α β : EInt) (f : Bool), balanced b f cv →
      α < β →
      ((plainAtari d b f cv ≤ α → (minimax d b α β f cv).1 ≤ α) ∧
       (α < plainAtari d b f cv → plainAtari d b f cv < β →
          (minimax d b α β f cv).1 = plainAtari d b f cv) ∧
       (β ≤ plainAtari d b f cv → β ≤ (minimax d b α β f cv).1)) := by
  intro d
  induction d with
  | zero =>
    intro b α β f _ _
    exact ⟨fun h => h, fun _ _ => rfl, fun h => h⟩
  | succ d ih =>
    intro b α β f hbal hαβ
    by_cases hfull : isBoardFull b = true
    · simp only [minimax, plainAtari]
      rw [if_pos hfull, if_pos hfull]
      exact ⟨fun h => h, fun _ _ => rfl, fun h => h⟩
    · cases f
      · simp only [minimax, plainAtari]
        rw [if_neg hfull, if_neg hfull, if_neg (by simp), if_neg (by simp)]
        have hmain := minLoop_clauses
          (fun b' β' => minimax d b' α β' true cv) cv α
          (fun b' β' => minimax_board d b' α β' true cv) allCells b
          (fun c =>
            if hasWin (setCell b c.1 c.2.1 c.2.2 (1 - cv)) (1 - cv) then
              eint (-1000)
            else plainAtari d (setCell b c.1 c.2.1 c.2.2 (1 - cv)) true cv)
          (fun c hcm hce => by
            have hbal' := balanced_place_min hcv hcm hce hbal
            beta_reduce
            refine ⟨?_, ?_, ?_⟩
            · split
              · exact ⟨le_refl _, eint_le_of_le (by norm_num)⟩
              · exact plainAtari_bounds hcv d _ true hbal'
            · intro hwin
              rw [if_pos hwin]
            · intro hwinF
              have hite : (if hasWin (setCell b c.1 c.2.1 c.2.2 (1 - cv))
                  (1 - cv) then eint (-1000)
                else plainAtari d (setCell b c.1 c.2.1 c.2.2 (1 - cv)) true
                  cv) =
                  plainAtari d (setCell b c.1 c.2.1 c.2.2 (1 - cv)) true
                    cv := by
                rw [if_neg (ne_true_of_eq_false hwinF)]
              rw [hite]
              exact ⟨fun β' hβ' => ih _ α β' true hbal' hβ',
                fun β' => minimax_bounds hcv d _ α β' true hbal'⟩)
          β ⊤ hαβ le_top le_top
        have hWT : min (⊤ : EInt) (((allCells.filter fun c =>
            b c.1 c.2.1 c.2.2 = -1).map fun c =>
              if hasWin (setCell b c.1 c.2.1 c.2.2 (1 - cv)) (1 - cv) then
                eint (-1000)
              else plainAtari d (setCell b c.1 c.2.1 c.2.2 (1 - cv)) true
                cv).foldr min ⊤) =
            ((allCells.filter fun c =>
            b c.1 c.2.1 c.2.2 = -1).map fun c =>
              if hasWin (setCell b c.1 c.2.1 c.2.2 (1 - cv)) (1 - cv) then
                eint (-1000)
              else plainAtari d (setCell b c.1 c.2.1 c.2.2 (1 - cv)) true
                cv).foldr min ⊤ := min_eq_right le_top
        rw [hWT] at hmain
        exact hmain
      · simp only [minimax, plainAtari]
        rw [if_neg hfull, if_neg hfull]
        simp only [if_true]
        have hmain := maxLoop_clauses
          (fun b' α' => minimax d b' α' β false cv) cv β
          (fun b' α' => minimax_board d b' α' β false cv) allCells b
          (fun c =>
            if hasWin (setCell b c.1 c.2.1 c.2.2 cv) cv then eint 1000
            else plainAtari d (setCell b c.1 c.2.1 c.2.2 cv) false cv)
          (fun c hcm hce => by
            have hbal' := balanced_place_max hcv hcm hce hbal
            beta_reduce
            refine ⟨?_, ?_, ?_⟩
            · split
              · exact ⟨eint_le_of_le (by norm_num), le_refl _⟩
              · exact plainAtari_bounds hcv d _ false hbal'
            · intro hwin
              rw [if_pos hwin]
            · intro hwinF
              have hite : (if hasWin (setCell b c.1 c.2.1 c.2.2 cv) cv then
                  eint 1000
                else plainAtari d (setCell b c.1 c.2.1 c.2.2 cv) false cv) =
                  plainAtari d (setCell b c.1 c.2.1 c.2.2 cv) false cv := by
                rw [if_neg (ne_true_of_eq_false hwinF)]
              rw [hite]
              exact ⟨fun α' hα' => ih _ α' β false hbal' hα',
                fun α' => minimax_bounds hcv d _ α' β false hbal'⟩)
          α ⊥ hαβ bot_le bot_le
        have hWB : max (⊥ : EInt) (((allCells.filter fun c =>
            b c.1 c.2.1 c.2.2 = -1).map fun c =>
              if hasWin (setCell b c.1 c.2.1 c.2.2 cv) cv then eint 1000
              else plainAtari d (setCell b c.1 c.2.1 c.2.2 cv) false
                cv).foldr max ⊥) =
            ((allCells.filter fun c =>
            b c.1 c.2.1 c.2.2 = -1).map fun c =>
              if hasWin (setCell b c.1 c.2.1 c.2.2 cv) cv then eint 1000
              else plainAtari d (setCell b c.1 c.2.1 c.2.2 cv) false
                cv).foldr max ⊥ := max_eq_right bot_le
        rw [hWB] at hmain
        exact hmain

/-- With the full initial window, `AtariTicTacToe3D.minimax` computes
exactly the unpruned minimax value on every balanced position. -/
theorem minimax_eq_plain {cv : Int} (hcv : cv = 0 ∨ cv = 1) (d : Nat)
    (b : Board) (f : Bool) (hbal : balanced b f cv) :
    (minimax d b ⊥ ⊤ f cv).1 = plainAtari d b f cv :=
  (minimax_clauses hcv d b ⊥ ⊤ f hbal bot_lt_top).2.1
    (lt_of_lt_of_le (bot_lt_eint (-1000))
      (plainAtari_bounds hcv d b f hbal).1)
    (lt_of_le_of_lt (plainAtari_bounds hcv d b f hbal).2 (eint_lt_top 1000))

end Atari

/-! ## `TTT3D` (ttt3d_4x4x4.py): cells `-1` empty, pieces `0` and `1` -/

namespace T4

/-- The flat `game_board` array built by `TTT3D.check_win`: scanning the
cells in layer/row/column order, slot `layer*16 + row*4 + col` is set
exactly when the cell holds `player_value`. -/
def gameBoard (b : Board) (pv : Int) : List Bool :=
  allCells.map fun c => decide (b c.1 c.2.1 c.2.2 = pv)

/-- `TTT3D.check_win` (state-passing): remember the original cell value,
temporarily place `player_value` at the move, build the flat board and scan
all winning combinations, and restore the original value — except that on a
win with `original == player_value` no restore is performed (the write was a
no-op).  Returns the win flag and the board as left behind. -/
def checkWin (b : Board) (pv : Int) (m : Coord) : Bool × Board :=
  let original := b m.1 m.2.1 m.2.2
  let b1 := setCell b m.1 m.2.1 m.2.2 pv
  if winningCombinationsIdx.any fun combo =>
      combo.all fun pos => (gameBoard b1 pv).getD pos false then
    (true, if ¬original = pv then setCell b1 m.1 m.2.1 m.2.2 original else b1)
  else
    (false, setCell b1 m.1 m.2.1 m.2.2 original)

/-- The flat availability array of `TTT3D.check_available`: a slot is set
when the cell holds `player_value` or is empty (`-1`). -/
def availBoard (b : Board) (pv : Int) : List Bool :=
  allCells.map fun c =>
    decide (b c.1 c.2.1 c.2.2 = pv ∨ b c.1 c.2.1 c.2.2 = -1)

/-- `TTT3D.check_available`: the number of winning combinations whose four
slots are all available to `player_value`. -/
def checkAvailable (b : Board) (pv : Int) : Nat :=
  winningCombinationsIdx.countP fun combo =>
    combo.all fun pos => (availBoard b pv).getD pos false

/-- `TTT3D.heuristic`, with the piece assignment resolved to the computer's
cell value `cv` and the human's cell value `hv`. -/
def heuristic (b : Board) (cv hv : Int) : Int :=
  (checkAvailable b cv : Int) - (checkAvailable b hv : Int)

/-- `TTT3D.check_win` restores every cell (claim C10): whichever branch is
taken, the board left behind equals the input board. -/
theorem checkWin_restores (b : Board) (pv : Int) (m : Coord) :
    (checkWin b pv m).2 = b := by
  simp only [checkWin]
  split
  · split
    · rw [setCell_setCell]
      exact setCell_eq_of_eq b rfl
    · rename_i h
      rw [not_not] at h
      exact setCell_eq_of_eq b h
  · rw [setCell_setCell]
    exact setCell_eq_of_eq b rfl

end T4

/-! ## `AtariTicTacToe3D.find_best_move` and full-board behaviour -/

namespace Atari

/-- The candidate loop of `AtariTicTacToe3D.find_best_move`: for each
candidate in order, place the computer piece, probe `check_win` and return
the candidate at once if the placement wins (after writing `-1` back);
otherwise score the position through `scoreOf` (the minimax call at the
difficulty's depth, or the random score of difficulty 1), undo the
placement, and keep the candidate on a strict score improvement. -/
def fbmLoop (scoreOf : Coord → Board → EInt) (cv : Int) :
    List Coord → Board → EInt → Option Coord → Option Coord × Board
  | [], b, _, best => (best, b)
  | m :: ms, b, bestScore, best =>
    let b1 := setCell b m.1 m.2.1 m.2.2 cv
    let cw := checkWin b1 cv m
    if cw.1 then (some m, setCell cw.2 m.1 m.2.1 m.2.2 (-1))
    else
      let s := scoreOf m cw.2
      let b2 := setCell cw.2 m.1 m.2.1 m.2.2 (-1)
      if bestScore < s then fbmLoop scoreOf cv ms b2 s (some m)
      else fbmLoop scoreOf cv ms b2 bestScore best

/-- `AtariTicTacToe3D.find_best_move`: `order` is the shuffled list of empty
cells, `best_score` starts at `-inf` and `best_move` at `None`. -/
def findBestMove (scoreOf : Coord → Board → EInt) (cv : Int)
    (order : List Coord) (b : Board) : Option Coord × Board :=
  fbmLoop scoreOf cv order b ⊥ none

/-- On a full board the empty-cell scan of `find_best_move` is empty. -/
theorem full_filter_nil {b : Board} (h : isBoardFull b = true) :
    (allCells.filter fun c => b c.1 c.2.1 c.2.2 = -1) = [] := by
  rw [List.filter_eq_nil_iff]
  intro c hc
  have hall := List.all_eq_true.mp h c hc
  simpa using hall

/-- If some candidate's placement completes a line, `fbmLoop` returns a
candidate whose placement completes a line, whatever the accumulators. -/
theorem fbmLoop_win (scoreOf : Coord → Board → EInt) (cv : Int) :
    ∀ (order : List Coord) (b : Board) (bs : EInt) (best : Option Coord),
      (∀ m ∈ order, b m.1 m.2.1 m.2.2 = -1) →
      (∃ m ∈ order, hasWin (setCell b m.1 m.2.1 m.2.2 cv) cv = true) →
      ∃ w, (fbmLoop scoreOf cv order b bs best).1 = some w ∧
        b w.1 w.2.1 w.2.2 = -1 ∧
        hasWin (setCell b w.1 w.2.1 w.2.2 cv) cv = true := by
  intro order
  induction order with
  | nil =>
    intro b bs best _ hex
    exact absurd hex (by simp)
  | cons m ms ih =>
    intro b bs best hemp hex
    have hm : b m.1 m.2.1 m.2.2 = -1 := hemp m (List.mem_cons_self m ms)
    simp only [fbmLoop]
    rw [checkWin_fst_place]
    by_cases hwin : hasWin (setCell b m.1 m.2.1 m.2.2 cv) cv = true
    · rw [if_pos hwin]
      exact ⟨m, rfl, hm, hwin⟩
    · rw [if_neg hwin]
      have hb2 : setCell (checkWin (setCell b m.1 m.2.1 m.2.2 cv) cv m).2
          m.1 m.2.1 m.2.2 (-1) = b := by
        rw [checkWin_board, setCell_setCell]
        exact setCell_eq_of_eq b hm
      rw [hb2]
      have hemp' : ∀ m' ∈ ms, b m'.1 m'.2.1 m'.2.2 = -1 :=
        fun m' hm' => hemp m' (List.mem_cons_of_mem _ hm')
      have hex' : ∃ m' ∈ ms,
          hasWin (setCell b m'.1 m'.2.1 m'.2.2 cv) cv = true := by
        obtain ⟨m', hm', hw'⟩ := hex
        rcases List.mem_cons.mp hm' with h | h
        · exact absurd (h ▸ hw') hwin
        · exact ⟨m', h, hw'⟩
      split
      · exact ih b _ _ hemp' hex'
      · exact ih b _ _ hemp' hex'

/-- `find_best_move` returns an immediately winning candidate whenever one
exists among the empty cells (the amended half of claim C4 that holds). -/
theorem findBestMove_win (scoreOf : Coord → Board → EInt) (cv : Int)
    (order : List Coord) (b : Board)
    (hperm : order.Perm (allCells.filter fun c => b c.1 c.2.1 c.2.2 = -1))
    (hex : ∃ c ∈ allCells, b c.1 c.2.1 c.2.2 = -1 ∧
      hasWin (setCell b c.1 c.2.1 c.2.2 cv) cv = true) :
    ∃ w, (findBestMove scoreOf cv order b).1 = some w ∧
      b w.1 w.2.1 w.2.2 = -1 ∧
      hasWin (setCell b w.1 w.2.1 w.2.2 cv) cv = true := by
  apply fbmLoop_win
  · intro m hmo
    have := hperm.subset hmo
    simpa using (List.mem_filter.mp this).2
  · obtain ⟨c, hca, hce, hcw⟩ := hex
    refine ⟨c, ?_, hcw⟩
    exact hperm.mem_iff.mpr (List.mem_filter.mpr ⟨hca, by simpa using hce⟩)

/-- On a full board `find_best_move` returns no move and leaves the board
unchanged (claim C8 on the Atari engine). -/
theorem findBestMove_full (scoreOf : Coord → Board → EInt) (cv : Int)
    (order : List Coord) (b : Board)
    (hperm : order.Perm (allCells.filter fun c => b c.1 c.2.1 c.2.2 = -1))
    (hfull : isBoardFull b = true) :
    findBestMove scoreOf cv order b = (none, b) := by
  have horder : order = [] := by
    have := hperm
    rw [full_filter_nil hfull] at this
    exact this.eq_nil
  subst horder
  rfl

end Atari

/-! ## The specification's open-line count (claims C6 and C7) -/

/-- Claim C6's specification value: the number of catalog lines in which
every cell is either `pv`'s piece or empty (`-1`). -/
def openLineCount (b : Board) (pv : Int) : Nat :=
  winningLines.countP fun line =>
    line.all fun c =>
      decide (b c.1 c.2.1 c.2.2 = pv ∨ b c.1 c.2.1 c.2.2 = -1)

theorem countP_congr_all {α : Type} (p q : α → Bool) :
    ∀ l : List α, (∀ x ∈ l, p x = q x) → l.countP p = l.countP q := by
  intro l
  induction l with
  | nil => intro _; rfl
  | cons a t ih =>
    intro h
    rw [List.countP_cons, List.countP_cons,
      ih fun x hx => h x (List.mem_cons_of_mem _ hx),
      h a (List.mem_cons_self _ _)]

theorem all_map_eq {α β : Type} (f : α → β) (p : β → Bool) :
    ∀ l : List α, (l.map f).all p = l.all fun a => p (f a) := by
  intro l
  induction l with
  | nil => rfl
  | cons a t ih => simp only [List.map_cons, List.all_cons, ih]

theorem all_congr_eq {α : Type} (p q : α → Bool) :
    ∀ l : List α, (∀ a ∈ l, p a = q a) → l.all p = l.all q := by
  intro l
  induction l with
  | nil => intro _; rfl
  | cons a t ih =>
    intro h
    simp only [List.all_cons, h a (List.mem_cons_self a t),
      ih fun x hx => h x (List.mem_cons_of_mem _ hx)]

theorem allCells_getElem_idx :
    ∀ c ∈ allCells, allCells[coordToIndex c]? = some c := by decide

theorem availBoard_getD (b : Board) (pv : Int) (c : Coord)
    (hc : c ∈ allCells) :
    (T4.availBoard b pv).getD (coordToIndex c) false =
      decide (b c.1 c.2.1 c.2.2 = pv ∨ b c.1 c.2.1 c.2.2 = -1) := by
  unfold T4.availBoard
  rw [List.getD_eq_getElem?_getD, List.getElem?_map, allCells_getElem_idx c hc]
  rfl

/-- The flat-index combination count of `TTT3D.check_available` is exactly
the specification's open-line count over the coordinate catalog. -/
theorem checkAvailable_eq_open (b : Board) (pv : Int) :
    T4.checkAvailable b pv = openLineCount b pv := by
  unfold T4.checkAvailable openLineCount
  rw [show winningCombinationsIdx = winningLines.map (List.map coordToIndex)
    from by decide, List.countP_map]
  apply countP_congr_all
  intro line hline
  simp only [Function.comp_apply]
  rw [all_map_eq]
  apply all_congr_eq
  intro c hcl
  have hca : c ∈ allCells := by
    have hsub : ∀ l ∈ winningLines, ∀ c' ∈ l, c' ∈ allCells := by decide
    exact hsub line hline c hcl
  exact availBoard_getD b pv c hca

theorem checkAvailable_le (b : Board) (pv : Int) :
    T4.checkAvailable b pv ≤ 76 := by
  have h := List.countP_le_length
    (p := fun combo : List Nat =>
      combo.all fun pos => (T4.availBoard b pv).getD pos false)
    (l := winningCombinationsIdx)
  have hlen : winningCombinationsIdx.length = 76 := by decide
  unfold T4.checkAvailable
  omega

/-- The TTT3D heuristic is bounded well below the ±1000 win scores. -/
theorem heuristic_abs_lt (b : Board) (cv hv : Int) :
    |T4.heuristic b cv hv| < 1000 := by
  have h1 := checkAvailable_le b cv
  have h2 := checkAvailable_le b hv
  unfold T4.heuristic
  rw [abs_lt]
  omega

/-! ## Concrete boards for the counterexamples and witnesses -/

/-- A board given by its 64 cell values in layer/row/column order, reading
`d` off the list (used for the concrete counterexample positions). -/
def boardOfList (l : List Int) (d : Int) : Board := fun z y x =>
  l.getD (z * 16 + y * 4 + x) d

/-- The claim C4 counterexample position for `TicTacToe3D` (cells `0` empty,
`1` X, `-1` O): blanks `(0,0,0)`, `(0,0,1)`, `(0,0,2)`; O completes the
column `(0,*,1)` by playing `(0,0,1)` and the column `(0,*,2)` by playing
`(0,0,2)`, while `(0,0,0)` wins nothing immediately but forces a win two
plies later, so depth-3 alpha-beta scores all three blanks `-10` and keeps
the first. -/
def bC4 : Board := boardOfList
  [0, 0, 0, 1, 1, -1, -1, -1, 1, -1, -1, 1, 1, -1, -1, 1,
   -1, -1, 1, 1, 1, 1, -1, -1, 1, -1, -1, -1, -1, -1, -1, 1,
   1, -1, -1, -1, -1, 1, 1, 1, 1, 1, -1, 1, -1, 1, 1, 1,
   1, -1, -1, 1, 1, -1, -1, -1, -1, 1, 1, -1, 1, -1, -1, -1] 0

/-- The claim C6 counterexample position for `AtariTicTacToe3D` (cells `-1`
empty): computer pieces (value `0`) at `(0,0,0)` and `(0,0,1)` only. -/
def bC6 : Board := fun z y x =>
  if z = 0 ∧ y = 0 ∧ (x = 0 ∨ x = 1) then 0 else -1

/-- The all-computer board (value `0` everywhere) of the claim C7
counterexample. -/
def bC7 : Board := fun _ _ _ => 0

/-- A full `TicTacToe3D` board (no zeroes) with `X` at `(3,3,3)`, the claim
C8 counterexample position. -/
def bC8 : Board := fun z y x => if (z + y + x) % 2 = 1 then 1 else -1

/-- The empty `TicTacToe3D` board. -/
def emptyT3 : Board := fun _ _ _ => 0

/-- The empty `AtariTicTacToe3D` / `TTT3D` board. -/
def emptyA : Board := fun _ _ _ => -1

/-- The board with computer pieces (value `0`) at `(0,0,0)`, `(0,0,1)` and
`(0,0,2)`: filling `(0,0,3)` completes the first row (witness board of claim
C4's amended statement). -/
def bW4 : Board := fun z y x => if z = 0 ∧ y = 0 ∧ x ≤ 2 then 0 else -1

namespace Atari

/-- The board-state effect of `AtariTicTacToe3D.make_move`: an unconditional
write of the mover's piece value (the rest of `make_move` is GUI work and
the post-move win/tie dispatch; there is no occupancy check and no error
path). -/
def makeMove (b : Board) (layer row col : Nat) (pv : Int) : Board :=
  setCell b layer row col pv

end Atari

/-! ## The claims -/

/-- Claim C1: invoked with the full initial window, alpha-beta minimax
returns the same score as the unpruned full minimax of the same depth —
for `TicTacToe3D.alpha_beta_minimax` on every board and player, and for
`AtariTicTacToe3D.minimax` on every position reachable by alternating play
(counts balanced for the side to move). -/
theorem claim_C1 :
    (∀ (d : Nat) (b : Board) (p : Int), p = 1 ∨ p = -1 →
      (T3.alphaBetaMinimax d b ⊥ ⊤ p).2.1 = T3.plainMinimax d b p) ∧
    (∀ (d : Nat) (b : Board) (f : Bool) (cv : Int), cv = 0 ∨ cv = 1 →
      Atari.balanced b f cv →
      (Atari.minimax d b ⊥ ⊤ f cv).1 = Atari.plainAtari d b f cv) :=
  ⟨fun d b p hp => T3.ab_eq_plain d b p hp,
   fun d b f cv hcv hbal => Atari.minimax_eq_plain hcv d b f hbal⟩

/-- Witness of claim C1 at depth 1 on the empty boards of both engines. -/
theorem claim_C1_witness :
    (T3.alphaBetaMinimax 1 emptyT3 ⊥ ⊤ 1).2.1 =
        T3.plainMinimax 1 emptyT3 1 ∧
    (Atari.minimax 1 emptyA ⊥ ⊤ true 0).1 = Atari.plainAtari 1 emptyA true 0 :=
  ⟨claim_C1.1 1 emptyT3 1 (Or.inl rfl),
   claim_C1.2 1 emptyA true 0 (Or.inl rfl)
     (by unfold Atari.balanced; decide)⟩

/-- Claim C2: for every board, depth, window and mover, the recursive
minimax call of each engine returns the board with every cell exactly as it
was at entry, on every exit path (the embeddings thread the mutated board
through every path and return it). -/
theorem claim_C2 :
    (∀ (d : Nat) (b : Board) (α β : EInt) (player : Int),
      (T3.alphaBetaMinimax d b α β player).2.2 = b) ∧
    (∀ (d : Nat) (b : Board) (α β : EInt) (isMax : Bool) (cv : Int),
      (Atari.minimax d b α β isMax cv).2 = b) :=
  ⟨fun d b α β p => T3.alphaBetaMinimax_board d b α β p,
   fun d b α β f cv => Atari.minimax_board d b α β f cv⟩

/-- Claim C3: the catalog has exactly 76 winning lines; every line has
exactly 4 coordinates with every component in `[0, 4)`; no two lines are
equal as coordinate sets; and the flat-index catalog of
`TTT3D._generate_winning_combinations` is the same catalog under
`layer*16 + row*4 + col`. -/
theorem claim_C3 :
    winningLines.length = 76 ∧
    (∀ l ∈ winningLines, l.length = 4 ∧
      ∀ c ∈ l, c.1 < 4 ∧ c.2.1 < 4 ∧ c.2.2 < 4) ∧
    List.Pairwise (fun l1 l2 => ¬(l1 ⊆ l2 ∧ l2 ⊆ l1)) winningLines ∧
    winningCombinationsIdx = winningLines.map (List.map coordToIndex) :=
  ⟨by decide, by decide, by decide, by decide⟩

/-- Claim C4, as stated, is false at `bC4`: O completes a column by playing
the empty cell `(0,0,1)`, yet `TicTacToe3D.ai_move` (difficulty
`'difficult'`, search depth `min 4 3 = 3`) returns `(0,0,0)`, whose filling
completes nothing. -/
theorem claim_C4_counterexample :
    bC4 0 0 1 = 0 ∧
    T3.checkWinner (T3.setMove bC4 0 0 1 (-1)) (-1) = true ∧
    (T3.aiMove (fun l => l.headD (0, 0, 0)) 4 bC4).1 = (0, 0, 0) ∧
    T3.checkWinner (T3.setMove bC4 0 0 0 (-1)) (-1) = false := by decide

/-- Claim C4 (amended): `AtariTicTacToe3D.find_best_move` probes every
candidate with `check_win` before scoring it and returns on the first win,
so whenever some empty coordinate's filling with the computer's piece
completes a line it returns such a coordinate, for every shuffle order and
scoring function; `TicTacToe3D.ai_move` has no immediate-win short-circuit
and can return a non-winning move (claim_C4_counterexample). -/
theorem claim_C4 : ∀ (scoreOf : Coord → Board → EInt) (cv : Int)
    (order : List Coord) (b : Board),
    order.Perm (allCells.filter fun c => b c.1 c.2.1 c.2.2 = -1) →
    (∃ c ∈ allCells, b c.1 c.2.1 c.2.2 = -1 ∧
      Atari.hasWin (setCell b c.1 c.2.1 c.2.2 cv) cv = true) →
    ∃ w, (Atari.findBestMove scoreOf cv order b).1 = some w ∧
      b w.1 w.2.1 w.2.2 = -1 ∧
      Atari.hasWin (setCell b w.1 w.2.1 w.2.2 cv) cv = true :=
  fun s cv o b hperm hex => Atari.findBestMove_win s cv o b hperm hex

/-- Witness of claim C4 on `bW4`, where filling `(0,0,3)` completes the
first row. -/
theorem claim_C4_witness :
    ∃ w, (Atari.findBestMove (fun _ _ => ⊥) 0
        (allCells.filter fun c => bW4 c.1 c.2.1 c.2.2 = -1) bW4).1 =
          some w ∧
      bW4 w.1 w.2.1 w.2.2 = -1 ∧
      Atari.hasWin (setCell bW4 w.1 w.2.1 w.2.2 0) 0 = true :=
  claim_C4 (fun _ _ => ⊥) 0 _ bW4 (List.Perm.refl _) (by decide)

/-- Claim C6, as stated, is false at `bC6` for
`AtariTicTacToe3D.evaluate_board`: with computer pieces at `(0,0,0)` and
`(0,0,1)` the squared-count evaluation is `13`, while the open-line
difference the claim describes is `10`. -/
theorem claim_C6_counterexample :
    ¬Atari.evaluateBoard bC6 0 =
      (openLineCount bC6 0 : Int) - openLineCount bC6 1 := by decide

/-- Claim C6 (amended): `TTT3D.heuristic` — the static evaluation at the
`look_ahead` horizon — equals the number of catalog lines whose cells are
all the computer's piece or empty minus the same count for the human, for
every board; `AtariTicTacToe3D.evaluate_board` is a different, squared-count
evaluation (claim_C6_counterexample). -/
theorem claim_C6 : ∀ (b : Board) (cv hv : Int),
    T4.heuristic b cv hv =
      (openLineCount b cv : Int) - openLineCount b hv := by
  intro b cv hv
  unfold T4.heuristic
  rw [checkAvailable_eq_open, checkAvailable_eq_open]

/-- Claim C7, as stated, is false for `AtariTicTacToe3D.evaluate_board`: on
the all-computer board every line scores `16`, the evaluation is `1216`, and
its magnitude is not below the ±1000 win score. -/
theorem claim_C7_counterexample :
    ¬|Atari.evaluateBoard bC7 0| < 1000 := by decide

/-- Claim C7 (amended): the ±1000 win scores strictly dominate the static
evaluation on every board the searches can reach: the `TTT3D` heuristic is
below 1000 in magnitude on every board, and the Atari squared-count
evaluation is below 1000 in magnitude on every position reachable by
alternating play (on unreachable boards it can reach 1216,
claim_C7_counterexample). -/
theorem claim_C7 :
    (∀ (b : Board) (cv hv : Int), |T4.heuristic b cv hv| < 1000) ∧
    (∀ (b : Board) (f : Bool) (cv : Int), cv = 0 ∨ cv = 1 →
      Atari.balanced b f cv → |Atari.evaluateBoard b cv| < 1000) :=
  ⟨fun b cv hv => heuristic_abs_lt b cv hv,
   fun b f cv hcv hbal => by
     have h := Atari.evaluateBoard_bounds hcv hbal
     rw [abs_lt]
     omega⟩

/-- Witness of claim C7 on the empty board. -/
theorem claim_C7_witness :
    |T4.heuristic emptyA 1 0| < 1000 ∧ |Atari.evaluateBoard emptyA 0| < 1000 :=
  ⟨claim_C7.1 emptyA 1 0,
   claim_C7.2 emptyA true 0 (Or.inl rfl) (by unfold Atari.balanced; decide)⟩

/-- Claim C8, as stated, is false at the full board `bC8`:
`TicTacToe3D.ai_move` does not return "no move" — the alpha-beta call at
depth `min 4 0 = 0` yields the `(-1,-1,-1)` sentinel, which `set_move`
turns through Python negative indexing into an O write over the X at
`(3,3,3)`. -/
theorem claim_C8_counterexample :
    T3.boardFull bC8 = true ∧
    bC8 3 3 3 = 1 ∧
    (T3.aiMove (fun l => l.headD (0, 0, 0)) 4 bC8).1 = (-1, -1, -1) ∧
    (T3.aiMove (fun l => l.headD (0, 0, 0)) 4 bC8).2 3 3 3 = -1 := by decide

/-- Claim C8 (amended): `AtariTicTacToe3D.find_best_move` on a board with
zero empty coordinates returns `None` and leaves every cell unchanged,
whatever the scoring function (`computer_turn` then calls `handle_tie`);
`TicTacToe3D.ai_move` instead overwrites cell `(3,3,3)`
(claim_C8_counterexample). -/
theorem claim_C8 : ∀ (scoreOf : Coord → Board → EInt) (cv : Int)
    (order : List Coord) (b : Board),
    order.Perm (allCells.filter fun c => b c.1 c.2.1 c.2.2 = -1) →
    Atari.isBoardFull b = true →
    Atari.findBestMove scoreOf cv order b = (none, b) :=
  fun s cv o b hperm hfull => Atari.findBestMove_full s cv o b hperm hfull

/-- Witness of claim C8 on the full all-computer board. -/
theorem claim_C8_witness :
    Atari.findBestMove (fun _ _ => (⊥ : EInt)) 0 [] bC7 = (none, bC7) :=
  claim_C8 (fun _ _ => (⊥ : EInt)) 0 [] bC7 (by decide) (by decide)

/-- Claim C9, as stated, is false: `TicTacToe3D.set_move` on the occupied
cell `(0,0,3)` of `bC4` (an X) raises no error and silently overwrites the
cell with O. -/
theorem claim_C9_counterexample :
    ¬bC4 0 0 3 = 0 ∧ T3.setMove bC4 0 0 3 (-1) 0 0 3 = -1 := by decide

/-- Claim C9 (amended): both place operations (`TicTacToe3D.set_move` and
the board write of `AtariTicTacToe3D.make_move`) write unconditionally:
even on an occupied cell there is no error result and the cell afterwards
holds the new player value. -/
theorem claim_C9 : ∀ (b : Board) (z y x : Nat) (p : Int),
    (¬b z y x = 0 → T3.setMove b z y x p z y x = p) ∧
    (¬b z y x = -1 → Atari.makeMove b z y x p z y x = p) :=
  fun b z y x p =>
    ⟨fun _ => by simp [T3.setMove, setCell],
     fun _ => by simp [Atari.makeMove, setCell]⟩

/-- Witness of claim C9 on occupied cells of `bC4` and `bC7`. -/
theorem claim_C9_witness :
    T3.setMove bC4 0 0 3 (-1) 0 0 3 = -1 ∧
    Atari.makeMove bC7 0 0 0 1 0 0 0 = 1 :=
  ⟨(claim_C9 bC4 0 0 3 (-1)).1 (by decide),
   (claim_C9 bC7 0 0 0 1).2 (by decide)⟩

/-- Claim C10: the win-probe `check_win(player, move)` of both engines
leaves every board cell with exactly the value it had before the call,
whether or not it reports a win. -/
theorem claim_C10 :
    (∀ (b : Board) (pv : Int) (m : Coord), (Atari.checkWin b pv m).2 = b) ∧
    (∀ (b : Board) (pv : Int) (m : Coord), (T4.checkWin b pv m).2 = b) :=
  ⟨fun b pv m => Atari.checkWin_board b pv m,
   fun b pv m => T4.checkWin_restores b pv m⟩
